import Mathlib

/-!
Verification of the multi-player Reversi engine (`reversi.py`).

The Python source is shallowly embedded: positions are pairs of integers
(Python tuple arithmetic may leave the board), the board store is the pair of
the 2d cell array (`_board`) and the insertion-ordered association list
`_location_of_pieces` (a Python dict from player number to the list of that
player's occupied cells).  Python `ValueError` / `IndexError` outcomes are
modelled with `Except PyErr`.  `while` loops are embedded with an explicit
fuel argument that provably dominates the number of iterations the Python
loop can perform.
-/

namespace ReversiPy

/-- A board position, Python tuple `(row, col)` of ints. -/
abbrev Pos := Int × Int

inductive PyErr where
  | valueError
  | indexError
deriving DecidableEq, Repr

instance {ε α : Type} [DecidableEq ε] [DecidableEq α] : DecidableEq (Except ε α) :=
  fun x y =>
  match x, y with
  | .error e, .error f => decidable_of_iff (e = f) (by simp)
  | .error _, .ok _ => isFalse (fun h => by cases h)
  | .ok _, .error _ => isFalse (fun h => by cases h)
  | .ok a, .ok b => decidable_of_iff (a = b) (by simp)

/-- Python list-index resolution: a non-negative index is used as is, a
negative index `i` counts from the end (`i + len`), anything else is an
`IndexError` (`none`). -/
def pyIdx (len : Nat) (i : Int) : Option Nat :=
  if 0 ≤ i ∧ i < (len : Int) then some i.toNat
  else if i < 0 ∧ 0 ≤ i + (len : Int) then some (i + (len : Int)).toNat
  else none

/-- Lookup in an insertion-ordered association list (Python dict read). -/
def alGet (lop : List (Int × List Pos)) (k : Int) : Option (List Pos) :=
  match lop with
  | [] => none
  | (k', v) :: rest => if k' = k then some v else alGet rest k

/-- Update an existing key in place, preserving the dict's insertion order. -/
def alSet (lop : List (Int × List Pos)) (k : Int) (v : List Pos) :
    List (Int × List Pos) :=
  match lop with
  | [] => [(k, v)]
  | (k', v') :: rest => if k' = k then (k, v) :: rest else (k', v') :: alSet rest k v

/-- The board store: `cells` is `_board` (a list of rows of optional player
numbers) and `lop` is `_location_of_pieces`. -/
structure Board where
  cells : List (List (Option Int))
  lop : List (Int × List Pos)
deriving DecidableEq, Repr

/-- `Board.add_piece(player, location)`: writes the cell
(`self._board[row][col] = player`, with Python index semantics, so an
out-of-range index is an `IndexError` and a negative one wraps), then appends
`location` to `player`'s list unless already present, creating the dict entry
at the end if the key is new.  It does not touch any other player's list. -/
def Board.add_piece (b : Board) (player : Int) (loc : Pos) : Except PyErr Board :=
  match pyIdx b.cells.length loc.1 with
  | none => .error .indexError
  | some ri =>
    let row := (b.cells.get? ri).getD []
    match pyIdx row.length loc.2 with
    | none => .error .indexError
    | some ci =>
      let cells' := b.cells.set ri (row.set ci (some player))
      let lop' :=
        match alGet b.lop player with
        | some l => if loc ∈ l then b.lop else alSet b.lop player (l ++ [loc])
        | none => b.lop ++ [(player, [loc])]
      .ok ⟨cells', lop'⟩

/-- `Board.piece_count`: sum of the lengths of all location lists. -/
def Board.piece_count (b : Board) : Nat :=
  (b.lop.map (fun kv => kv.2.length)).sum

/-- Read the grid (the `_board` array) at a position; `none` both for an
empty cell and for a position off the array.  Used only to state properties;
the rules logic of the source reads `_location_of_pieces`. -/
def cellAt (b : Board) (c : Pos) : Option Int :=
  if 0 ≤ c.1 ∧ 0 ≤ c.2 then
    (((b.cells.get? c.1.toNat).bind (fun r => r.get? c.2.toNat)).getD none)
  else none

/-- The engine state: `_side`, `_players`, `_othello`, `_grid`, `_turn`. -/
structure State where
  side : Nat
  players : Nat
  othello : Bool
  grid : Board
  turn : Int
deriving DecidableEq, Repr

/-- `pos` lies within `[0, side)` in both coordinates. -/
def inB (side : Nat) (p : Pos) : Prop :=
  0 ≤ p.1 ∧ p.1 < (side : Int) ∧ 0 ≤ p.2 ∧ p.2 < (side : Int)

instance (side : Nat) (p : Pos) : Decidable (inB side p) := by
  unfold inB; infer_instance

/-- The 8 compass directions, in the order of the local `direction_list`
built inside `available_moves` and `apply_move`. -/
def direction_list : List Pos :=
  [(0, 1), (1, 1), (1, 0), (1, -1), (0, -1), (-1, -1), (-1, 0), (-1, 1)]

/-- `int(side/2 - players/2)`: Python true division then truncation toward
zero; exact truncating integer division of `side - players` by 2 (the float
halves are exact, and `int` truncates toward zero like `Int.tdiv`). -/
def odd_smaller_side (st : State) : Int :=
  Int.tdiv ((st.side : Int) - (st.players : Int)) 2

/-- `int(side/2 + players/2)`, see `odd_smaller_side`. -/
def odd_larger_side (st : State) : Int :=
  Int.tdiv ((st.side : Int) + (st.players : Int)) 2

/-- Python `range(a, b)` over integers. -/
def intRange (a b : Int) : List Int :=
  (List.range (b - a).toNat).map (fun n : Nat => a + (n : Int))

/-- The central-region cells (`othello_moves` in `available_moves`),
row-major. -/
def regionCells (st : State) : List Pos :=
  (intRange (odd_smaller_side st) (odd_larger_side st)).flatMap
    (fun r => (intRange (odd_smaller_side st) (odd_larger_side st)).map
      (fun c => ((r : Int), (c : Int))))

/-- `all_pieces`: every stored location, iterating the dict in order. -/
def allPieces (lop : List (Int × List Pos)) : List Pos :=
  (lop.map (fun kv => kv.2)).flatten

/-- `enemy_pieces` for player `t`: the locations of every key other than
`t`, in dict order. -/
def enemiesOf (lop : List (Int × List Pos)) (t : Int) : List Pos :=
  ((lop.filter (fun kv => kv.1 ≠ t)).map (fun kv => kv.2)).flatten

/-- `own_pieces` for player `t` (empty when the key is missing). -/
def ownOf (lop : List (Int × List Pos)) (t : Int) : List Pos :=
  (alGet lop t).getD []

/-- The `while sum in enemy_pieces: sum += direction` walk of
`possible_moves`.  The fuel `enemy.length + 1` dominates the iteration
count: for a nonzero direction the visited positions are pairwise distinct,
so at most `enemy.length` of them can test positive. -/
def walkEnemy (enemy : List Pos) (d : Pos) : Pos → Nat → Pos
  | s, 0 => s
  | s, fuel + 1 => if s ∈ enemy then walkEnemy enemy d (s + d) fuel else s

/-- Append a move to the accumulating `set()` of moves unless present. -/
def insertMove (ms : List Pos) (m : Pos) : List Pos :=
  if m ∈ ms then ms else ms ++ [m]

/-- Module-level `possible_moves(direction_list, own_pieces, enemy_pieces,
rows, cols)`: for each own piece and direction, if the adjacent cell is an
enemy piece, walk to the end of the contiguous enemy run; if that end is on
the board and occupied by nobody, it is a move.  The Python `set` is
modelled as a duplicate-free list. -/
def possible_moves (dl : List Pos) (own enemy : List Pos) (rows cols : Nat) :
    List Pos :=
  own.foldl (fun moves p =>
    dl.foldl (fun moves direction =>
      let sum0 := p + direction
      if sum0 ∈ enemy then
        let sum := walkEnemy enemy direction sum0 (enemy.length + 1)
        if (0 ≤ sum.1 ∧ 0 ≤ sum.2) ∧ (sum.1 < (rows : Int) ∧ sum.2 < (cols : Int)) then
          if sum ∈ enemy ∨ sum ∈ own then moves
          else insertMove moves sum
        else moves
      else moves) moves) []

/-- `Reversi.available_moves`: in the non-Othello opening phase (fewer than
`num_players ** 2` pieces) the unfilled central-region cells; otherwise the
result of `possible_moves` for the current player. -/
def available_moves (st : State) : List Pos :=
  let all_pieces := allPieces st.grid.lop
  let othello_moves := regionCells st
  if st.othello = false ∧ st.grid.piece_count < st.players ^ 2 then
    othello_moves.filter (fun m => m ∉ all_pieces)
  else
    possible_moves direction_list (ownOf st.grid.lop st.turn)
      (enemiesOf st.grid.lop st.turn) st.side st.side

/-- The loop body of `Reversi.done`: scan up to `num_players` players in
cyclic order starting at the current turn, advancing `_turn` (a side effect
kept in the returned state) past players without moves. -/
def doneLoop : Nat → State → Bool × State
  | 0, st => (true, st)
  | fuel + 1, st =>
    if available_moves st = [] then
      doneLoop fuel
        { st with turn := if st.turn = (st.players : Int) then 1 else st.turn + 1 }
    else (false, st)

/-- `Reversi.done` (returns the boolean and the state with the mutated
`_turn`). -/
def doneScan (st : State) : Bool × State := doneLoop st.players st

/-- `Reversi.outcome`: when done, fold the dict entries keeping the keys of
maximal list length (the running `winner` list and best count start at
`[], 0`). -/
def outcome (st : State) : List Int :=
  let winner :=
    if (doneScan st).1 then
      (st.grid.lop.foldl (fun (acc : List Int × Nat) kv =>
        if kv.2.length > acc.2 then ([kv.1], kv.2.length)
        else if kv.2.length = acc.2 then (acc.1 ++ [kv.1], acc.2)
        else acc) ([], 0)).1
    else []
  if winner.length > 0 then winner else []

/-- `Reversi.helper_eating_function(eaten_list)`: removes every eaten piece
from every player's list, then `add_piece`s each for the current turn. -/
def helper_eating_function (st : State) (eaten : List Pos) :
    Except PyErr State :=
  let lop1 := st.grid.lop.map (fun kv => (kv.1, eaten.foldl List.erase kv.2))
  let st1 : State := { st with grid := { st.grid with lop := lop1 } }
  eaten.foldlM (fun s pc => do
    let g ← s.grid.add_piece s.turn pc
    pure { s with grid := g }) st1

/-- The view the `own_pieces` local of `apply_move` has of the evolving
state: it aliases the dict's list for the key that was the turn at entry
(when that key existed at entry), else it is the unshared empty list. -/
def ownView (ownA : Bool) (ownKey : Int) (st : State) : List Pos :=
  if ownA then (alGet st.grid.lop ownKey).getD [] else []

/-- The per-direction capture loop of `apply_move`
(`while curr in enemy_pieces: ...`).  `enemy0` is the enemy snapshot taken
at entry; `eat` accumulates the run; on termination at a cell of
`own_pieces` the run is eaten.  Fuel as in `walkEnemy`. -/
def dirLoop (enemy0 : List Pos) (ownA : Bool) (ownKey : Int) (d : Pos)
    (side : Nat) :
    Nat → State → List Pos → Pos → Except PyErr State
  | 0, st, _, _ => .ok st
  | fuel + 1, st, eat, curr =>
    if curr ∈ enemy0 then
      if ((curr + d).1 ≥ 0 ∧ (curr + d).2 ≥ 0) ∧
         ((curr + d).1 < (side : Int) ∧ (curr + d).2 < (side : Int)) then
        if curr + d ∈ enemy0 then
          dirLoop enemy0 ownA ownKey d side fuel st (eat ++ [curr + d]) (curr + d)
        else if curr + d ∈ ownView ownA ownKey st then do
          let st' ← helper_eating_function st eat
          dirLoop enemy0 ownA ownKey d side fuel st' eat (curr + d)
        else dirLoop enemy0 ownA ownKey d side fuel st eat (curr + d)
      else dirLoop enemy0 ownA ownKey d side fuel st eat (curr + d)
    else .ok st

/-- One direction of the capture phase of `apply_move`. -/
def dirStep (enemy0 : List Pos) (ownA : Bool) (ownKey : Int) (side : Nat)
    (pos d : Pos) (st : State) : Except PyErr State :=
  if pos + d ∈ enemy0 then
    dirLoop enemy0 ownA ownKey d side (enemy0.length + 1) st [pos + d] (pos + d)
  else .ok st

/-- The `self._turn != self.num_players` branch of the turn advancement in
`apply_move`: note the reset `if self._turn >= self.num_players:
self._turn = 1` happens right after the increment, before the next
availability check. -/
def advLoopA : Nat → State → State
  | 0, st => st
  | fuel + 1, st =>
    if available_moves st = [] then
      let t' := st.turn + 1
      advLoopA fuel { st with turn := if t' ≥ (st.players : Int) then 1 else t' }
    else st

/-- The `self._turn == self.num_players` branch: increments without any
wrap. -/
def advLoopB : Nat → State → State
  | 0, st => st
  | fuel + 1, st =>
    if available_moves st = [] then advLoopB fuel { st with turn := st.turn + 1 }
    else st

/-- The turn-advancement epilogue of `apply_move`. -/
def turnAdvance (st : State) : State :=
  if st.turn ≠ (st.players : Int) then
    advLoopA st.players { st with turn := st.turn + 1 }
  else
    advLoopB st.players { st with turn := 1 }

/-- `Reversi.apply_move(pos)`: snapshots `own_pieces` (an alias of the
dict's list for the entry turn) and `enemy_pieces`, evaluates `self.done`
(whose turn mutation is kept), and unless done places the piece and runs the
8 capture directions against the snapshots; finally the turn advancement
runs unconditionally.  There is no bounds check anywhere. -/
def apply_move (st : State) (pos : Pos) : Except PyErr State :=
  let ownA := (alGet st.grid.lop st.turn).isSome
  let ownKey := st.turn
  let enemy0 := enemiesOf st.grid.lop st.turn
  let (dn, s1) := doneScan st
  if dn then .ok (turnAdvance s1)
  else do
    let g ← s1.grid.add_piece s1.turn pos
    let s2 : State := { s1 with grid := g }
    let s3 ← direction_list.foldlM
      (fun s d => dirStep enemy0 ownA ownKey s.side pos d s) s2
    .ok (turnAdvance s3)

/-- `Reversi.load_game(turn, grid)`: validates the turn and the row count,
then walks the `side`-by-`side` index square additively placing every
non-`None` cell after checking its value is not `< 0` nor
`> num_players`; finally sets the turn.  Reading a too-short row is an
`IndexError`. -/
def load_game (st : State) (turn : Int) (g : List (List (Option Int))) :
    Except PyErr State :=
  if turn > (st.players : Int) ∨ turn ≤ 0 then .error .valueError
  else if g.length ≠ st.side then .error .valueError
  else do
    let st' ← (List.range g.length).foldlM (fun s row =>
      (List.range g.length).foldlM (fun (s : State) col =>
        match ((g.get? row).getD []).get? col with
        | none => .error .indexError
        | some none => .ok s
        | some (some v) =>
          if v < 0 ∨ v > (st.players : Int) then .error .valueError
          else do
            let gb ← s.grid.add_piece v ((row : Int), (col : Int))
            .ok { s with grid := gb }) s) st
    .ok { st' with turn := turn }

/-- `Reversi.simulate_moves(moves)`: deep-copies the engine (value copy) and
applies each move in order with `apply_move`; the original value is not
touched. -/
def simulate_moves (st : State) (moves : List Pos) : Except PyErr State :=
  moves.foldlM (fun s m => apply_move s m) st

/-- `Reversi.__init__(side, players, othello)`: parity and minimum-size
validation, then an empty `side × side` board, with the standard 4-piece
cluster for players 1 and 2 when `othello` is set; the turn starts at 1. -/
def mkReversi (side players : Nat) (othello : Bool) : Except PyErr State :=
  if side % 2 ≠ players % 2 then .error .valueError
  else if side ≤ 3 then .error .valueError
  else
    let b0 : Board := ⟨List.replicate side (List.replicate side none), []⟩
    let smaller : Int := ((side / 2 : Nat) : Int) - 1
    let larger : Int := ((side / 2 : Nat) : Int)
    if othello then do
      let b1 ← b0.add_piece 1 (larger, smaller)
      let b2 ← b1.add_piece 1 (smaller, larger)
      let b3 ← b2.add_piece 2 (larger, larger)
      let b4 ← b3.add_piece 2 (smaller, smaller)
      .ok ⟨side, players, othello, b4, 1⟩
    else
      .ok ⟨side, players, othello, b0, 1⟩

end ReversiPy

namespace ReversiPy

/-! ## Concrete states used to evaluate the code on specific inputs -/

/-- Fallback value for match-extraction of successful results. -/
def dummyState : State := ⟨0, 0, false, ⟨[], []⟩, 0⟩

/-- The engine right after `Reversi(4, 2, True)`. -/
def othelloStart : State :=
  match mkReversi 4 2 true with
  | .ok s => s
  | .error _ => dummyState

/-- The engine right after `Reversi(4, 2, False)`. -/
def plainStart : State :=
  match mkReversi 4 2 false with
  | .ok s => s
  | .error _ => dummyState

/-- State reached by `apply_move((-1, 0))` on `othelloStart`. -/
def c1Post : State :=
  match apply_move othelloStart (-1, 0) with
  | .ok s => s
  | .error _ => dummyState

/-- A full 4-player 4×4 snapshot: player 1 to move, whose only legal move is
`(1, 0)`; after it players 2, 3 and 1 have no move while player 4 does. -/
def c2Grid : List (List (Option Int)) :=
  [[some 4, some 4, some 4, none],
   [none,   some 2, some 1, some 4],
   [some 2, some 1, some 2, some 4],
   [some 4, some 2, some 2, some 4]]

/-- The engine `Reversi(4, 4, True)` after `load_game(1, c2Grid)` (the grid
agrees with the initial Othello cluster, so the load is conflict-free). -/
def c2State : State :=
  match mkReversi 4 4 true with
  | .ok s =>
    match load_game s 1 c2Grid with
    | .ok s' => s'
    | .error _ => dummyState
  | .error _ => dummyState

/-- State reached by `apply_move((1, 0))` on `c2State`. -/
def c2Post : State :=
  match apply_move c2State (1, 0) with
  | .ok s => s
  | .error _ => dummyState

/-- A snapshot reassigning cell `(1, 1)` (player 2's in the Othello start)
to player 1. -/
def c3Grid : List (List (Option Int)) :=
  [[none, none, none, none],
   [none, some 1, none, none],
   [none, none, none, none],
   [none, none, none, none]]

/-- The engine `Reversi(4, 2, True)` after `load_game(1, c3Grid)`. -/
def c3Post : State :=
  match load_game othelloStart 1 c3Grid with
  | .ok s => s
  | .error _ => dummyState

/-- A snapshot whose only occupied cell carries the value 0, which is not a
player number (players are numbered from 1). -/
def c4Grid : List (List (Option Int)) :=
  [[some 0, none, none, none],
   [none, none, none, none],
   [none, none, none, none],
   [none, none, none, none]]

/-- The engine `Reversi(4, 2, False)` after `load_game(1, c4Grid)`. -/
def c4Post : State :=
  match load_game plainStart 1 c4Grid with
  | .ok s => s
  | .error _ => dummyState

/-! ## C1 -/

/-- C1: the claim says `apply_move(pos)` raises `ValueError` for any `pos`
with a coordinate outside `[0, side)`, before any mutation.  The code has no
bounds check: on the fresh `Reversi(4, 2, True)` engine, `apply_move((-1, 0))`
succeeds, silently writes player 1's piece into the wrapped-around cell
`(3, 0)` (empty beforehand), records the off-board location `(-1, 0)` in
player 1's set, and advances the turn to 2; and `apply_move((4, 0))` dies
with `IndexError`, not `ValueError`.  This contradicts the claim (and the
method's own docstring). -/
theorem apply_move_out_of_bounds_not_valueError :
    apply_move othelloStart (-1, 0) = .ok c1Post ∧
    c1Post.turn = 2 ∧
    cellAt othelloStart.grid (3, 0) = none ∧
    cellAt c1Post.grid (3, 0) = some 1 ∧
    (-1, 0) ∈ ownOf c1Post.grid.lop 1 ∧
    apply_move othelloStart (4, 0) = .error .indexError := by decide

/-! ## C2 -/

/-- C2: in `c2State` (4 players, player 1 to move, reachable via
`load_game` on `Reversi(4, 4, True)`), `(1, 0)` is a legal move.  After
`apply_move((1, 0))`, players 2, 3 and 1 have no available move while player
4 does, so by the claim (and by `apply_move`'s docstring example) the turn
must advance to 4.  Instead the scan's wrap-reset skips player
`num_players`: the resulting turn is 3, a player with no available move,
while the game is not over.  This refutes the turn-skip invariant. -/
theorem apply_move_turn_skip_invariant_fails :
    c2State.turn = 1 ∧ c2State.players = 4 ∧
    available_moves c2State = [(1, 0)] ∧
    apply_move c2State (1, 0) = .ok c2Post ∧
    c2Post.turn = 3 ∧
    available_moves c2Post = [] ∧
    available_moves { c2Post with turn := 2 } = [] ∧
    available_moves { c2Post with turn := 1 } = [] ∧
    available_moves { c2Post with turn := 4 } = [(0, 3)] ∧
    (doneScan c2Post).1 = false := by decide

/-! ## C3 -/

/-- C3: the claim says every public operation preserves the one-owner board
invariant, and that placing over a cell owned by another player removes it
from the previous owner's set first.  `Board.add_piece` performs no such
removal, so `load_game` over the non-empty `Reversi(4, 2, True)` board
leaves cell `(1, 1)` in both player 1's and player 2's occupied sets while
the grid reports player 1 — the invariant is broken by a public
operation. -/
theorem load_game_breaks_one_owner_invariant :
    load_game othelloStart 1 c3Grid = .ok c3Post ∧
    cellAt othelloStart.grid (1, 1) = some 2 ∧
    cellAt c3Post.grid (1, 1) = some 1 ∧
    (1, 1) ∈ ownOf c3Post.grid.lop 1 ∧
    (1, 1) ∈ ownOf c3Post.grid.lop 2 := by decide

/-! ## C4 -/

/-- C4: the claim says `load_game` rejects (with `ValueError`) any occupied
cell whose player value lies outside `[1, num_players]`, in particular the
value 0.  The code checks `player_at_loc < 0`, so a grid cell holding 0 is
accepted: on `Reversi(4, 2, False)` the load succeeds and registers a piece
for the nonexistent player 0. -/
theorem load_game_accepts_player_zero :
    load_game plainStart 1 c4Grid = .ok c4Post ∧
    (0, 0) ∈ ownOf c4Post.grid.lop 0 ∧
    cellAt c4Post.grid (0, 0) = some 0 := by decide

end ReversiPy

namespace ReversiPy

/-! ## C10 -/

/-- C10: the constructor checks only parity and `side ≥ 4`; for every even
`side ≥ 4`, `Reversi(side, 0, False)` succeeds, yields `turn == 1`, and the
resulting engine is immediately done (the `done` scan checks 0 players) with
an empty `outcome`. -/
theorem construct_zero_players_succeeds (side : Nat) (hpar : side % 2 = 0)
    (hge : 4 ≤ side) :
    ∃ st : State, mkReversi side 0 false = .ok st ∧ st.turn = 1 ∧
      (doneScan st).1 = true ∧ outcome st = [] := by
  refine ⟨⟨side, 0, false, ⟨List.replicate side (List.replicate side none), []⟩, 1⟩,
    ?_, rfl, rfl, rfl⟩
  have h1 : ¬ (side % 2 ≠ 0 % 2) := by omega
  have h2 : ¬ (side ≤ 3) := by omega
  unfold mkReversi
  rw [if_neg h1, if_neg h2]
  rfl

/-- Witness for C10 at `side = 4`. -/
theorem construct_zero_players_succeeds_witness :
    (4 % 2 = 0) ∧ (4 ≤ 4) ∧
    (∃ st : State, mkReversi 4 0 false = .ok st ∧ st.turn = 1 ∧
      (doneScan st).1 = true ∧ outcome st = []) :=
  ⟨by decide, by decide, construct_zero_players_succeeds 4 (by decide) (by decide)⟩

/-! ## C8 -/

/-- Sequential replay of a move list: each supplied move is applied, in
order, via the same `apply_move` logic, propagating any error. -/
def applySeq (s : State) : List Pos → Except PyErr State
  | [] => .ok s
  | m :: ms =>
    match apply_move s m with
    | .ok s' => applySeq s' ms
    | .error e => .error e

/-- C8: `simulate_moves` deep-copies the engine (a value copy in this
embedding, so the original engine value is untouched by construction, which
is the purity half of the claim) and the returned engine is exactly the
result of applying each supplied move in order via `apply_move`. -/
theorem simulate_moves_replays_apply_move (s : State) (ms : List Pos) :
    simulate_moves s ms = applySeq s ms := by
  induction ms generalizing s with
  | nil => rfl
  | cons m ms ih =>
    unfold simulate_moves applySeq
    rw [List.foldlM_cons]
    cases h : apply_move s m with
    | ok s' =>
      show (Except.ok s' >>= fun s'' => ms.foldlM (fun a b => apply_move a b) s'') = _
      rw [show (Except.ok s' >>= fun s'' => ms.foldlM (fun a b => apply_move a b) s'') =
        ms.foldlM (fun a b => apply_move a b) s' from rfl]
      exact ih s'
    | error e => rfl

end ReversiPy

namespace ReversiPy

/-! ## C6 -/

lemma mem_intRange {a b x : Int} : x ∈ intRange a b ↔ a ≤ x ∧ x < b := by
  simp only [intRange, List.mem_map, List.mem_range]
  constructor
  · rintro ⟨n, hn, rfl⟩
    omega
  · rintro ⟨h1, h2⟩
    exact ⟨(x - a).toNat, by omega, by omega⟩

lemma mem_regionCells {st : State} {m : Pos} :
    m ∈ regionCells st ↔
      odd_smaller_side st ≤ m.1 ∧ m.1 < odd_larger_side st ∧
      odd_smaller_side st ≤ m.2 ∧ m.2 < odd_larger_side st := by
  simp only [regionCells, List.mem_flatMap, List.mem_map]
  constructor
  · rintro ⟨r, hr, c, hc, rfl⟩
    rw [mem_intRange] at hr hc
    exact ⟨hr.1, hr.2, hc.1, hc.2⟩
  · rintro ⟨h1, h2, h3, h4⟩
    exact ⟨m.1, mem_intRange.2 ⟨h1, h2⟩, m.2, mem_intRange.2 ⟨h3, h4⟩, rfl⟩

lemma tdiv_two_exact {a : Int} (ha : a % 2 = 0) : 2 * Int.tdiv a 2 = a := by
  obtain ⟨k, rfl⟩ : ∃ k, a = 2 * k := ⟨a / 2, by omega⟩
  rw [Int.mul_tdiv_cancel_left _ (by norm_num)]

/-- C6: with `othello_layout` false and fewer than `num_players ** 2` pieces
on the board, `available_moves` — for any current player — is exactly the
set of unoccupied cells with both coordinates in
`[side/2 - players/2, side/2 + players/2)` (stated multiplied by 2, which is
exact since the constructor forces `side` and `players` to share parity);
and once the count reaches `num_players ** 2` it reverts to the normal
flanking computation `possible_moves`. -/
theorem available_moves_opening_phase (st : State)
    (hpar : st.side % 2 = st.players % 2) (hoth : st.othello = false) :
    (st.grid.piece_count < st.players ^ 2 →
      ∀ (p : Int) (m : Pos), m ∈ available_moves { st with turn := p } ↔
        (m ∉ allPieces st.grid.lop ∧
         (st.side : Int) - (st.players : Int) ≤ 2 * m.1 ∧
         2 * m.1 < (st.side : Int) + (st.players : Int) ∧
         (st.side : Int) - (st.players : Int) ≤ 2 * m.2 ∧
         2 * m.2 < (st.side : Int) + (st.players : Int))) ∧
    (st.players ^ 2 ≤ st.grid.piece_count →
      available_moves st = possible_moves direction_list
        (ownOf st.grid.lop st.turn) (enemiesOf st.grid.lop st.turn)
        st.side st.side) := by
  constructor
  · intro hcnt p m
    have hcond : ({ st with turn := p } : State).othello = false ∧
        ({ st with turn := p } : State).grid.piece_count <
          ({ st with turn := p } : State).players ^ 2 := ⟨hoth, hcnt⟩
    unfold available_moves
    rw [if_pos hcond, List.mem_filter]
    have e1 : regionCells { st with turn := p } = regionCells st := rfl
    rw [e1, mem_regionCells]
    have e2 : 2 * odd_smaller_side st = (st.side : Int) - (st.players : Int) :=
      tdiv_two_exact (by omega)
    have e3 : 2 * odd_larger_side st = (st.side : Int) + (st.players : Int) :=
      tdiv_two_exact (by omega)
    simp only [decide_not, Bool.not_eq_eq_eq_not, Bool.not_true, decide_eq_false_iff_not]
    constructor
    · rintro ⟨⟨h1, h2, h3, h4⟩, h5⟩
      exact ⟨h5, by omega, by omega, by omega, by omega⟩
    · rintro ⟨h5, h1, h2, h3, h4⟩
      exact ⟨⟨by omega, by omega, by omega, by omega⟩, h5⟩
  · intro hcnt
    have hcond : ¬ (st.othello = false ∧ st.grid.piece_count < st.players ^ 2) := by
      rintro ⟨-, h⟩
      omega
    unfold available_moves
    rw [if_neg hcond]

/-- Witness for C6 on the fresh `Reversi(4, 2, False)` engine, whose board
is empty (0 pieces, so in opening phase). -/
theorem available_moves_opening_phase_witness :
    (plainStart.side % 2 = plainStart.players % 2) ∧
    (plainStart.othello = false) ∧
    ((plainStart.grid.piece_count < plainStart.players ^ 2 →
      ∀ (p : Int) (m : Pos), m ∈ available_moves { plainStart with turn := p } ↔
        (m ∉ allPieces plainStart.grid.lop ∧
         (plainStart.side : Int) - (plainStart.players : Int) ≤ 2 * m.1 ∧
         2 * m.1 < (plainStart.side : Int) + (plainStart.players : Int) ∧
         (plainStart.side : Int) - (plainStart.players : Int) ≤ 2 * m.2 ∧
         2 * m.2 < (plainStart.side : Int) + (plainStart.players : Int))) ∧
    (plainStart.players ^ 2 ≤ plainStart.grid.piece_count →
      available_moves plainStart = possible_moves direction_list
        (ownOf plainStart.grid.lop plainStart.turn)
        (enemiesOf plainStart.grid.lop plainStart.turn)
        plainStart.side plainStart.side)) :=
  ⟨by decide, by decide, available_moves_opening_phase plainStart (by decide) (by decide)⟩

end ReversiPy

namespace ReversiPy

/-! ## C9 -/

/-- One cyclic step of the `done` scan's turn advance (wrapping from
`num_players` back to 1). -/
def cycNext (np : Nat) (t : Int) : Int := if t = (np : Int) then 1 else t + 1

/-- Iterated cyclic steps. -/
def cycIter (np : Nat) (t : Int) : Nat → Int
  | 0 => t
  | i + 1 => cycIter np (cycNext np t) i

lemma doneLoop_true_iff (fuel : Nat) :
    ∀ st : State, (doneLoop fuel st).1 = true ↔
      ∀ i, i < fuel →
        available_moves { st with turn := cycIter st.players st.turn i } = [] := by
  induction fuel with
  | zero =>
    intro st
    constructor
    · intro _ i hi
      omega
    · intro _
      rfl
  | succ f ih =>
    intro st
    rw [doneLoop]
    by_cases h : available_moves st = []
    · rw [if_pos h,
        ih { st with turn := if st.turn = (st.players : Int) then 1 else st.turn + 1 }]
      constructor
      · intro hall i hi
        match i, hi with
        | 0, _ => exact h
        | j + 1, hj => exact hall j (by omega)
      · intro hall j hj
        exact hall (j + 1) (by omega)
    · rw [if_neg h]
      constructor
      · intro hfalse
        exact absurd hfalse (by simp)
      · intro hall
        exact absurd (hall 0 (by omega)) h

lemma doneLoop_false_spec (fuel : Nat) :
    ∀ st : State, (doneLoop fuel st).1 = false →
      ∃ i, i < fuel ∧
        (doneLoop fuel st).2 = { st with turn := cycIter st.players st.turn i } ∧
        available_moves { st with turn := cycIter st.players st.turn i } ≠ [] ∧
        ∀ j, j < i →
          available_moves { st with turn := cycIter st.players st.turn j } = [] := by
  induction fuel with
  | zero =>
    intro st h
    exact absurd h (by simp [doneLoop])
  | succ f ih =>
    intro st h
    rw [doneLoop] at h ⊢
    by_cases hm : available_moves st = []
    · rw [if_pos hm] at h ⊢
      obtain ⟨i, hi, h2, h3, h4⟩ :=
        ih { st with turn := if st.turn = (st.players : Int) then 1 else st.turn + 1 } h
      refine ⟨i + 1, by omega, h2, h3, ?_⟩
      intro j hj
      match j, hj with
      | 0, _ => exact hm
      | j' + 1, hj' => exact h4 j' (by omega)
    · rw [if_neg hm] at h ⊢
      refine ⟨0, by omega, rfl, hm, ?_⟩
      intro j hj
      omega

lemma cycIter_formula (np : Nat) :
    ∀ (i : Nat), i ≤ np → ∀ t : Int, 1 ≤ t → t ≤ (np : Int) →
      (t + i ≤ (np : Int) → cycIter np t i = t + i) ∧
      ((np : Int) < t + i → cycIter np t i = t + i - np) := by
  intro i
  induction i with
  | zero =>
    intro _ t h1 h2
    constructor
    · intro _
      show t = t + ((0 : Nat) : Int)
      omega
    · intro hc
      have : False := by push_cast at hc; omega
      exact this.elim
  | succ j ihj =>
    intro hle t h1 h2
    have hnext1 : 1 ≤ cycNext np t := by unfold cycNext; split <;> omega
    have hnext2 : cycNext np t ≤ (np : Int) := by unfold cycNext; split <;> omega
    obtain ⟨ha, hb⟩ := ihj (by omega) (cycNext np t) hnext1 hnext2
    constructor
    · intro hc
      show cycIter np (cycNext np t) j = t + ((j + 1 : Nat) : Int)
      have he : cycNext np t = t + 1 := by
        unfold cycNext
        split
        · push_cast at hc
          omega
        · rfl
      rw [he] at ha
      rw [he, ha (by push_cast at hc ⊢; omega)]
      push_cast
      ring
    · intro hc
      show cycIter np (cycNext np t) j = t + ((j + 1 : Nat) : Int) - np
      by_cases ht : t = (np : Int)
      · have he : cycNext np t = 1 := by unfold cycNext; rw [if_pos ht]
        rw [he] at ha
        rw [he, ha (by omega)]
        push_cast
        omega
      · have he : cycNext np t = t + 1 := by unfold cycNext; rw [if_neg ht]
        rw [he] at hb
        rw [he, hb (by push_cast at hc ⊢; omega)]
        push_cast
        omega

lemma cycIter_in_range (np : Nat) :
    ∀ (i : Nat) (t : Int), 1 ≤ t → t ≤ (np : Int) →
      1 ≤ cycIter np t i ∧ cycIter np t i ≤ (np : Int) := by
  intro i
  induction i with
  | zero => exact fun t h1 h2 => ⟨h1, h2⟩
  | succ j ihj =>
    intro t h1 h2
    exact ihj (cycNext np t) (by unfold cycNext; split <;> omega)
      (by unfold cycNext; split <;> omega)

lemma cyc_covers (np : Nat) (t p : Int) (h1 : 1 ≤ t) (h2 : t ≤ (np : Int))
    (hp1 : 1 ≤ p) (hp2 : p ≤ (np : Int)) :
    ∃ i, i < np ∧ cycIter np t i = p := by
  by_cases hge : t ≤ p
  · refine ⟨(p - t).toNat, by omega, ?_⟩
    obtain ⟨ha, _⟩ := cycIter_formula np (p - t).toNat (by omega) t h1 h2
    rw [ha (by omega)]
    omega
  · refine ⟨(p + np - t).toNat, by omega, ?_⟩
    obtain ⟨_, hb⟩ := cycIter_formula np (p + np - t).toNat (by omega) t h1 h2
    rw [hb (by omega)]
    omega

/-- C9: for any engine state whose turn is a live player (`turn ∈
[1, num_players]`, the constructor invariant), `done` is true iff the scan
starting at the current turn — equivalently, every player among
`1..num_players` — finds no available move; and when it returns false it has
advanced `turn` (a side effect of the property) to the first player, in
cyclic order starting from the current turn, that has an available move. -/
theorem done_scan_characterization (st : State)
    (h1 : 1 ≤ st.turn) (h2 : st.turn ≤ (st.players : Int)) :
    ((doneScan st).1 = true ↔
      ∀ p : Int, 1 ≤ p → p ≤ (st.players : Int) →
        available_moves { st with turn := p } = []) ∧
    ((doneScan st).1 = false →
      ∃ i, i < st.players ∧
        (doneScan st).2 = { st with turn := cycIter st.players st.turn i } ∧
        available_moves { st with turn := cycIter st.players st.turn i } ≠ [] ∧
        ∀ j, j < i →
          available_moves { st with turn := cycIter st.players st.turn j } = []) := by
  constructor
  · rw [show doneScan st = doneLoop st.players st from rfl,
      doneLoop_true_iff st.players st]
    constructor
    · intro hall p hp1 hp2
      obtain ⟨i, hi, he⟩ := cyc_covers st.players st.turn p h1 h2 hp1 hp2
      rw [← he]
      exact hall i hi
    · intro hall i hi
      have hb := cycIter_in_range st.players i st.turn h1 h2
      exact hall _ hb.1 hb.2
  · intro hf
    exact doneLoop_false_spec st.players st hf

/-- Witness for C9 on the fresh `Reversi(4, 2, True)` engine. -/
theorem done_scan_characterization_witness :
    (1 ≤ othelloStart.turn) ∧ (othelloStart.turn ≤ (othelloStart.players : Int)) ∧
    (((doneScan othelloStart).1 = true ↔
      ∀ p : Int, 1 ≤ p → p ≤ (othelloStart.players : Int) →
        available_moves { othelloStart with turn := p } = []) ∧
    ((doneScan othelloStart).1 = false →
      ∃ i, i < othelloStart.players ∧
        (doneScan othelloStart).2 =
          { othelloStart with turn := cycIter othelloStart.players othelloStart.turn i } ∧
        available_moves
          { othelloStart with turn := cycIter othelloStart.players othelloStart.turn i } ≠ [] ∧
        ∀ j, j < i →
          available_moves
            { othelloStart with turn := cycIter othelloStart.players othelloStart.turn j } = [])) :=
  ⟨by decide, by decide, done_scan_characterization othelloStart (by decide) (by decide)⟩

end ReversiPy

namespace ReversiPy

/-! ## Rays along a direction, and maximal enemy runs -/

/-- The cell `k` steps away from `p` along direction `d`. -/
def ray (p d : Pos) (k : Nat) : Pos :=
  (p.1 + (k : Int) * d.1, p.2 + (k : Int) * d.2)

lemma prodAdd_def (a b : Pos) : a + b = (a.1 + b.1, a.2 + b.2) := rfl

lemma ray_zero (p d : Pos) : ray p d 0 = p := by
  simp [ray]

lemma ray_one (p d : Pos) : ray p d 1 = p + d := by
  simp [ray, prodAdd_def]

lemma ray_succ (p d : Pos) (k : Nat) : ray p d (k + 1) = ray p d k + d := by
  simp only [ray, prodAdd_def, Prod.mk.injEq]
  constructor <;> push_cast <;> ring

lemma ray_shift (p d : Pos) (k : Nat) : ray (p + d) d k = ray p d (k + 1) := by
  simp only [ray, prodAdd_def, Prod.mk.injEq]
  constructor <;> push_cast <;> ring

lemma ray_injective {d : Pos} (hd : d ≠ (0, 0)) (p : Pos) {k k' : Nat}
    (h : ray p d k = ray p d k') : k = k' := by
  rw [ray, ray, Prod.mk.injEq] at h
  obtain ⟨h1, h2⟩ := h
  have hd' : d.1 ≠ 0 ∨ d.2 ≠ 0 := by
    by_contra hc
    push_neg at hc
    exact hd (Prod.ext hc.1 hc.2)
  rcases hd' with hx | hx
  · have : (k : Int) = (k' : Int) :=
      mul_right_cancel₀ hx (by omega)
    omega
  · have : (k : Int) = (k' : Int) :=
      mul_right_cancel₀ hx (by omega)
    omega

/-- For a nonzero direction, within `enemy.length + 1` steps the ray leaves
the finite list `enemy`. -/
lemma ray_escape (enemy : List Pos) {d : Pos} (hd : d ≠ (0, 0)) (p : Pos) :
    ∃ j : Nat, 1 ≤ j ∧ j ≤ enemy.length + 1 ∧ ray p d j ∉ enemy := by
  by_contra hcon
  push_neg at hcon
  have hinj : Function.Injective (fun j : Nat => ray p d (j + 1)) := by
    intro a b hab
    have := @ray_injective d hd p (a + 1) (b + 1) hab
    omega
  have hnd := (List.nodup_range (enemy.length + 1)).map hinj
  have hsub : ∀ x ∈ (List.range (enemy.length + 1)).map (fun j : Nat => ray p d (j + 1)),
      x ∈ enemy := by
    intro x hx
    obtain ⟨j, hj, rfl⟩ := List.mem_map.1 hx
    rw [List.mem_range] at hj
    exact hcon (j + 1) (by omega) (by omega)
  have h1 : ((List.range (enemy.length + 1)).map
      (fun j : Nat => ray p d (j + 1))).toFinset.card = enemy.length + 1 := by
    rw [List.toFinset_card_of_nodup hnd, List.length_map, List.length_range]
  have h2 : ((List.range (enemy.length + 1)).map
      (fun j : Nat => ray p d (j + 1))).toFinset ⊆ enemy.toFinset := by
    intro x hx
    rw [List.mem_toFinset] at hx ⊢
    exact hsub x hx
  have h3 := Finset.card_le_card h2
  have h4 := enemy.toFinset_card_le
  omega

/-- Length of the maximal prefix of the ray `c, c+d, c+2d, ...` lying in
`enemy`, computed with fuel. -/
def runLenAux (enemy : List Pos) (d : Pos) : Pos → Nat → Nat
  | _, 0 => 0
  | c, fuel + 1 => if c ∈ enemy then runLenAux enemy d (c + d) fuel + 1 else 0

/-- Length of the maximal run of `enemy` cells adjacent to `p` along `d`. -/
def runLen (enemy : List Pos) (p d : Pos) : Nat :=
  runLenAux enemy d (p + d) (enemy.length + 1)

lemma runLenAux_correct (enemy : List Pos) (d : Pos) :
    ∀ (n : Nat) (c : Pos) (fuel : Nat),
      (∀ m : Nat, m < n → ray c d m ∈ enemy) → ray c d n ∉ enemy → n < fuel →
      runLenAux enemy d c fuel = n := by
  intro n
  induction n with
  | zero =>
    intro c fuel _ hout hfuel
    match fuel, hfuel with
    | f + 1, _ =>
      rw [runLenAux, if_neg (by rw [← ray_zero c d]; exact hout)]
  | succ m ih =>
    intro c fuel hall hout hfuel
    match fuel, hfuel with
    | f + 1, _ =>
      rw [runLenAux, if_pos (by have := hall 0 (by omega); rwa [ray_zero] at this)]
      have h1 : ∀ j : Nat, j < m → ray (c + d) d j ∈ enemy := by
        intro j hj
        rw [ray_shift]
        exact hall (j + 1) (by omega)
      have h2 : ray (c + d) d m ∉ enemy := by
        rw [ray_shift]
        exact hout
      rw [ih (c + d) f h1 h2 (by omega)]

lemma walkEnemy_correct (enemy : List Pos) (d : Pos) :
    ∀ (n : Nat) (c : Pos) (fuel : Nat),
      (∀ m : Nat, m < n → ray c d m ∈ enemy) → ray c d n ∉ enemy → n < fuel →
      walkEnemy enemy d c fuel = ray c d n := by
  intro n
  induction n with
  | zero =>
    intro c fuel _ hout hfuel
    match fuel, hfuel with
    | f + 1, _ =>
      rw [walkEnemy, if_neg (by rw [← ray_zero c d]; exact hout), ray_zero]
  | succ m ih =>
    intro c fuel hall hout hfuel
    match fuel, hfuel with
    | f + 1, _ =>
      rw [walkEnemy, if_pos (by have := hall 0 (by omega); rwa [ray_zero] at this)]
      have h1 : ∀ j : Nat, j < m → ray (c + d) d j ∈ enemy := by
        intro j hj
        rw [ray_shift]
        exact hall (j + 1) (by omega)
      have h2 : ray (c + d) d m ∉ enemy := by
        rw [ray_shift]
        exact hout
      rw [ih (c + d) f h1 h2 (by omega), ray_shift]

/-- The defining properties of `runLen` for a nonzero direction. -/
lemma runLen_spec (enemy : List Pos) {d : Pos} (hd : d ≠ (0, 0)) (p : Pos) :
    (∀ j : Nat, 1 ≤ j → j ≤ runLen enemy p d → ray p d j ∈ enemy) ∧
    ray p d (runLen enemy p d + 1) ∉ enemy := by
  obtain ⟨j0, hj1, hj2, hj3⟩ := ray_escape enemy hd p
  have hex : ∃ n : Nat, ray p d (n + 1) ∉ enemy := ⟨j0 - 1, by
    have : j0 - 1 + 1 = j0 := by omega
    rw [this]
    exact hj3⟩
  have hmin := Nat.find_spec hex
  have hlt : ∀ m : Nat, m < Nat.find hex → ray p d (m + 1) ∈ enemy := by
    intro m hm
    have := Nat.find_min hex hm
    by_contra hc
    exact this hc
  have hfind_le : Nat.find hex ≤ enemy.length := by
    have hmle : ray p d (j0 - 1 + 1) ∉ enemy := by
      have h9 : j0 - 1 + 1 = j0 := by omega
      rw [h9]
      exact hj3
    have := Nat.find_min' hex hmle
    omega
  have heq : runLen enemy p d = Nat.find hex := by
    rw [runLen]
    apply runLenAux_correct enemy d (Nat.find hex) (p + d) (enemy.length + 1)
    · intro m hm
      rw [ray_shift]
      exact hlt m hm
    · rw [ray_shift]
      exact hmin
    · omega
  rw [heq]
  constructor
  · intro j h1 h2
    have : j - 1 < Nat.find hex := by omega
    have := hlt (j - 1) this
    have he : j - 1 + 1 = j := by omega
    rwa [he] at this
  · exact hmin

/-- Any run description pins down `runLen`. -/
lemma runLen_eq_of (enemy : List Pos) {d : Pos} (hd : d ≠ (0, 0)) (p : Pos)
    (k : Nat) (hall : ∀ j : Nat, 1 ≤ j → j ≤ k → ray p d j ∈ enemy)
    (hout : ray p d (k + 1) ∉ enemy) : runLen enemy p d = k := by
  obtain ⟨hall', hout'⟩ := runLen_spec enemy hd p
  by_contra hne
  rcases Nat.lt_or_ge (runLen enemy p d) k with hlt | hge
  · exact hout' (hall (runLen enemy p d + 1) (by omega) (by omega))
  · exact hout (hall' (k + 1) (by omega) (by omega))

/-- The `possible_moves` walk lands exactly one past the maximal run. -/
lemma walkEnemy_runLen (enemy : List Pos) {d : Pos} (hd : d ≠ (0, 0)) (p : Pos) :
    walkEnemy enemy d (p + d) (enemy.length + 1) =
      ray p d (runLen enemy p d + 1) := by
  obtain ⟨hall, hout⟩ := runLen_spec enemy hd p
  have hfind_le : runLen enemy p d ≤ enemy.length := by
    by_contra hgt
    push_neg at hgt
    obtain ⟨j0, hj1, hj2, hj3⟩ := ray_escape enemy hd p
    exact hj3 (hall j0 hj1 (by omega))
  rw [show walkEnemy enemy d (p + d) (enemy.length + 1) =
      ray (p + d) d (runLen enemy p d) from ?_, ray_shift]
  apply walkEnemy_correct
  · intro m hm
    rw [ray_shift]
    exact hall (m + 1) (by omega) (by omega)
  · rw [ray_shift]
    exact hout
  · omega

lemma direction_list_ne_zero : ∀ d ∈ direction_list, d ≠ ((0 : Int), (0 : Int)) := by
  decide

end ReversiPy

namespace ReversiPy

/-! ## Membership characterization of possible_moves -/

/-- The body of the inner (per-direction) loop of `possible_moves`,
with the lets expanded. -/
def innerBody (own enemy : List Pos) (rows cols : Nat) (q : Pos)
    (moves : List Pos) (d : Pos) : List Pos :=
  if q + d ∈ enemy then
    if (0 ≤ (walkEnemy enemy d (q + d) (enemy.length + 1)).1 ∧
        0 ≤ (walkEnemy enemy d (q + d) (enemy.length + 1)).2) ∧
       ((walkEnemy enemy d (q + d) (enemy.length + 1)).1 < (rows : Int) ∧
        (walkEnemy enemy d (q + d) (enemy.length + 1)).2 < (cols : Int)) then
      if walkEnemy enemy d (q + d) (enemy.length + 1) ∈ enemy ∨
         walkEnemy enemy d (q + d) (enemy.length + 1) ∈ own then moves
      else insertMove moves (walkEnemy enemy d (q + d) (enemy.length + 1))
    else moves
  else moves

lemma possible_moves_eq (dl own enemy : List Pos) (rows cols : Nat) :
    possible_moves dl own enemy rows cols =
      own.foldl (fun moves q => dl.foldl (innerBody own enemy rows cols q) moves) [] :=
  rfl

/-- The condition under which scanning from piece `q` along `d` contributes
the move `m`. -/
def dirAdds (own enemy : List Pos) (rows cols : Nat) (q d m : Pos) : Prop :=
  q + d ∈ enemy ∧
  m = walkEnemy enemy d (q + d) (enemy.length + 1) ∧
  (0 ≤ m.1 ∧ 0 ≤ m.2) ∧ (m.1 < (rows : Int) ∧ m.2 < (cols : Int)) ∧
  m ∉ enemy ∧ m ∉ own

lemma mem_insertMove {ms : List Pos} {m x : Pos} :
    x ∈ insertMove ms m ↔ x ∈ ms ∨ x = m := by
  unfold insertMove
  by_cases h : m ∈ ms
  · rw [if_pos h]
    constructor
    · exact Or.inl
    · rintro (hx | rfl)
      · exact hx
      · exact h
  · rw [if_neg h]
    simp

lemma mem_innerBody {own enemy : List Pos} {rows cols : Nat} {q d : Pos}
    {acc : List Pos} {x : Pos} :
    x ∈ innerBody own enemy rows cols q acc d ↔
      x ∈ acc ∨ dirAdds own enemy rows cols q d x := by
  unfold innerBody dirAdds
  by_cases h1 : q + d ∈ enemy
  · rw [if_pos h1]
    by_cases h2 : (0 ≤ (walkEnemy enemy d (q + d) (enemy.length + 1)).1 ∧
        0 ≤ (walkEnemy enemy d (q + d) (enemy.length + 1)).2) ∧
       ((walkEnemy enemy d (q + d) (enemy.length + 1)).1 < (rows : Int) ∧
        (walkEnemy enemy d (q + d) (enemy.length + 1)).2 < (cols : Int))
    · rw [if_pos h2]
      by_cases h3 : walkEnemy enemy d (q + d) (enemy.length + 1) ∈ enemy ∨
          walkEnemy enemy d (q + d) (enemy.length + 1) ∈ own
      · rw [if_pos h3]
        constructor
        · exact Or.inl
        · rintro (hx | ⟨-, rfl, -, -, h5, h6⟩)
          · exact hx
          · exact absurd h3 (by tauto)
      · rw [if_neg h3]
        rw [mem_insertMove]
        push_neg at h3
        constructor
        · rintro (hx | rfl)
          · exact Or.inl hx
          · exact Or.inr ⟨h1, rfl, h2.1, h2.2, h3.1, h3.2⟩
        · rintro (hx | ⟨-, rfl, -, -, -, -⟩)
          · exact Or.inl hx
          · exact Or.inr rfl
    · rw [if_neg h2]
      constructor
      · exact Or.inl
      · rintro (hx | ⟨-, rfl, ha, hb, -, -⟩)
        · exact hx
        · exact absurd ⟨ha, hb⟩ h2
  · rw [if_neg h1]
    constructor
    · exact Or.inl
    · rintro (hx | ⟨hq, -, -, -, -, -⟩)
      · exact hx
      · exact absurd hq h1

lemma mem_inner_foldl {own enemy : List Pos} {rows cols : Nat} {q : Pos} :
    ∀ (dl : List Pos) (acc : List Pos) (x : Pos),
      x ∈ dl.foldl (innerBody own enemy rows cols q) acc ↔
        x ∈ acc ∨ ∃ d ∈ dl, dirAdds own enemy rows cols q d x := by
  intro dl
  induction dl with
  | nil =>
    intro acc x
    simp
  | cons d dl ih =>
    intro acc x
    rw [List.foldl_cons, ih, mem_innerBody]
    simp only [List.mem_cons]
    constructor
    · rintro ((hx | hadd) | ⟨d', hd', hadd⟩)
      · exact Or.inl hx
      · exact Or.inr ⟨d, Or.inl rfl, hadd⟩
      · exact Or.inr ⟨d', Or.inr hd', hadd⟩
    · rintro (hx | ⟨d', hd' | hd', hadd⟩)
      · exact Or.inl (Or.inl hx)
      · subst hd'
        exact Or.inl (Or.inr hadd)
      · exact Or.inr ⟨d', hd', hadd⟩

lemma mem_possible_moves {dl own enemy : List Pos} {rows cols : Nat} {x : Pos} :
    x ∈ possible_moves dl own enemy rows cols ↔
      ∃ q ∈ own, ∃ d ∈ dl, dirAdds own enemy rows cols q d x := by
  rw [possible_moves_eq]
  have main : ∀ (ps : List Pos) (acc : List Pos),
      x ∈ ps.foldl (fun moves q => dl.foldl (innerBody own enemy rows cols q) moves) acc ↔
        x ∈ acc ∨ ∃ q ∈ ps, ∃ d ∈ dl, dirAdds own enemy rows cols q d x := by
    intro ps
    induction ps with
    | nil =>
      intro acc
      simp
    | cons q ps ih =>
      intro acc
      rw [List.foldl_cons, ih, mem_inner_foldl]
      simp only [List.mem_cons]
      constructor
      · rintro ((hx | ⟨d, hd, hadd⟩) | ⟨q', hq', d, hd, hadd⟩)
        · exact Or.inl hx
        · exact Or.inr ⟨q, Or.inl rfl, d, hd, hadd⟩
        · exact Or.inr ⟨q', Or.inr hq', d, hd, hadd⟩
      · rintro (hx | ⟨q', hq' | hq', d, hd, hadd⟩)
        · exact Or.inl (Or.inl hx)
        · subst hq'
          exact Or.inl (Or.inr ⟨d, hd, hadd⟩)
        · exact Or.inr ⟨q', hq', d, hd, hadd⟩
  rw [main own []]
  simp

lemma insertMove_nodup {ms : List Pos} {m : Pos} (h : ms.Nodup) :
    (insertMove ms m).Nodup := by
  unfold insertMove
  by_cases hm : m ∈ ms
  · rwa [if_pos hm]
  · rw [if_neg hm]
    rw [List.nodup_append]
    refine ⟨h, List.nodup_singleton m, ?_⟩
    intro x hx hx2
    rw [List.mem_singleton] at hx2
    subst hx2
    exact hm hx

lemma innerBody_nodup {own enemy : List Pos} {rows cols : Nat} {q d : Pos}
    {acc : List Pos} (h : acc.Nodup) :
    (innerBody own enemy rows cols q acc d).Nodup := by
  unfold innerBody
  split
  · split
    · split
      · exact h
      · exact insertMove_nodup h
    · exact h
  · exact h

lemma possible_moves_nodup (dl own enemy : List Pos) (rows cols : Nat) :
    (possible_moves dl own enemy rows cols).Nodup := by
  rw [possible_moves_eq]
  have inner : ∀ (ds : List Pos) (q : Pos) (acc : List Pos), acc.Nodup →
      (ds.foldl (innerBody own enemy rows cols q) acc).Nodup := by
    intro ds
    induction ds with
    | nil => intro q acc h; exact h
    | cons d ds ih =>
      intro q acc h
      rw [List.foldl_cons]
      exact ih q _ (innerBody_nodup h)
  have outer : ∀ (ps : List Pos) (acc : List Pos), acc.Nodup →
      (ps.foldl (fun moves q => dl.foldl (innerBody own enemy rows cols q) moves) acc).Nodup := by
    intro ps
    induction ps with
    | nil => intro acc h; exact h
    | cons q ps ih =>
      intro acc h
      rw [List.foldl_cons]
      exact ih _ (inner dl q acc h)
  exact outer own [] List.nodup_nil

end ReversiPy

namespace ReversiPy

/-! ## Board-store well-formedness -/

/-- The board-store invariant of the spec's data model, in a decidable
form: the array is `side × side`; the dict keys and every location list are
duplicate-free; every stored location is on the board and the array agrees
with its owner; and every occupied array cell is stored under its owner. -/
def WF (st : State) : Prop :=
  st.grid.cells.length = st.side ∧
  (∀ r ∈ st.grid.cells, r.length = st.side) ∧
  (st.grid.lop.map (fun kv => kv.1)).Nodup ∧
  (∀ kv ∈ st.grid.lop, kv.2.Nodup) ∧
  (∀ kv ∈ st.grid.lop, ∀ c ∈ kv.2, inB st.side c ∧ cellAt st.grid c = some kv.1) ∧
  (∀ i : Nat, i < st.side → ∀ j : Nat, j < st.side →
    cellAt st.grid ((i : Int), (j : Int)) = none ∨
    ∃ kv ∈ st.grid.lop, cellAt st.grid ((i : Int), (j : Int)) = some kv.1 ∧
      ((i : Int), (j : Int)) ∈ kv.2)

instance (st : State) : Decidable (WF st) := by
  unfold WF
  infer_instance

lemma alGet_mem {lop : List (Int × List Pos)} {k : Int} {v : List Pos}
    (h : alGet lop k = some v) : (k, v) ∈ lop := by
  induction lop with
  | nil => cases h
  | cons hd rest ih =>
    obtain ⟨a, b⟩ := hd
    rw [alGet] at h
    by_cases ha : a = k
    · rw [if_pos ha] at h
      subst ha
      have : b = v := by injection h
      subst this
      exact List.mem_cons_self _ _
    · rw [if_neg ha] at h
      exact List.mem_cons_of_mem _ (ih h)

lemma alGet_of_mem {lop : List (Int × List Pos)}
    (hnd : (lop.map (fun kv => kv.1)).Nodup) {kv : Int × List Pos}
    (h : kv ∈ lop) : alGet lop kv.1 = some kv.2 := by
  induction lop with
  | nil => cases h
  | cons hd rest ih =>
    obtain ⟨a, b⟩ := hd
    rw [List.map_cons, List.nodup_cons] at hnd
    rw [List.mem_cons] at h
    rcases h with rfl | h
    · rw [alGet, if_pos rfl]
    · rw [alGet]
      have hne : a ≠ kv.1 := by
        intro he
        apply hnd.1
        rw [he]
        exact List.mem_map.2 ⟨kv, h, rfl⟩
      rw [if_neg hne]
      exact ih hnd.2 h

lemma cellAt_eq_some_imp {b : Board} {c : Pos} {p : Int}
    (h : cellAt b c = some p) :
    0 ≤ c.1 ∧ 0 ≤ c.2 ∧ c.1.toNat < b.cells.length ∧
    ∃ r, b.cells.get? c.1.toNat = some r ∧ r.get? c.2.toNat = some (some p) := by
  unfold cellAt at h
  by_cases hc : 0 ≤ c.1 ∧ 0 ≤ c.2
  · rw [if_pos hc] at h
    cases hr : b.cells.get? c.1.toNat with
    | none =>
      rw [hr] at h
      cases h
    | some r =>
      rw [hr] at h
      have h' : (r.get? c.2.toNat).getD none = some p := h
      cases hcc : r.get? c.2.toNat with
      | none =>
        rw [hcc] at h'
        cases h'
      | some o =>
        rw [hcc] at h'
        cases o with
        | none => cases h'
        | some q =>
          have hq : q = p := by
            simpa using h'
          subst hq
          obtain ⟨hlt, -⟩ := List.get?_eq_some.1 hr
          exact ⟨hc.1, hc.2, hlt, r, rfl, hcc⟩
  · rw [if_neg hc] at h
    cases h

lemma owned_iff {st : State} (hwf : WF st) (p : Int) (c : Pos) :
    (∃ l, alGet st.grid.lop p = some l ∧ c ∈ l) ↔ cellAt st.grid c = some p := by
  obtain ⟨hd1, hd2, hknd, hvnd, hstore, hcover⟩ := hwf
  constructor
  · rintro ⟨l, hl, hc⟩
    exact (hstore (p, l) (alGet_mem hl) c hc).2
  · intro h
    obtain ⟨hc1, hc2, hlt, r, hr, hcc⟩ := cellAt_eq_some_imp h
    have hrmem : r ∈ st.grid.cells := List.get?_mem hr
    have hj : c.2.toNat < st.side := by
      have hrlen := hd2 r hrmem
      obtain ⟨hlt2, -⟩ := List.get?_eq_some.1 hcc
      omega
    have hi : c.1.toNat < st.side := by omega
    have hcast : ((c.1.toNat : Int), (c.2.toNat : Int)) = c := by
      refine Prod.ext ?_ ?_
      · simp [Int.toNat_of_nonneg hc1]
      · simp [Int.toNat_of_nonneg hc2]
    rcases hcover c.1.toNat hi c.2.toNat hj with hnone | ⟨kv, hkv, hsome, hmem⟩
    · rw [hcast, h] at hnone
      cases hnone
    · rw [hcast] at hsome hmem
      rw [h] at hsome
      have hkp : kv.1 = p := by
        injection hsome with hh
        exact hh.symm
      exact ⟨kv.2, by rw [← hkp]; exact alGet_of_mem hknd hkv, hmem⟩

lemma mem_ownOf_iff {st : State} (hwf : WF st) {t : Int} {c : Pos} :
    c ∈ ownOf st.grid.lop t ↔ cellAt st.grid c = some t := by
  rw [← owned_iff hwf t c]
  unfold ownOf
  cases halg : alGet st.grid.lop t with
  | none => simp [halg]
  | some l => simp [halg]

lemma mem_enemiesOf {lop : List (Int × List Pos)} {t : Int} {c : Pos} :
    c ∈ enemiesOf lop t ↔ ∃ kv ∈ lop, kv.1 ≠ t ∧ c ∈ kv.2 := by
  unfold enemiesOf
  rw [List.mem_flatten]
  constructor
  · rintro ⟨l, hl, hc⟩
    rw [List.mem_map] at hl
    obtain ⟨kv, hkv, rfl⟩ := hl
    rw [List.mem_filter] at hkv
    refine ⟨kv, hkv.1, ?_, hc⟩
    simpa using hkv.2
  · rintro ⟨kv, hkv, hne, hc⟩
    exact ⟨kv.2, List.mem_map.2 ⟨kv, List.mem_filter.2 ⟨hkv, by simpa using hne⟩, rfl⟩, hc⟩

lemma mem_enemiesOf_iff {st : State} (hwf : WF st) {t : Int} {c : Pos} :
    c ∈ enemiesOf st.grid.lop t ↔ ∃ p, p ≠ t ∧ cellAt st.grid c = some p := by
  rw [mem_enemiesOf]
  constructor
  · rintro ⟨kv, hkv, hne, hc⟩
    obtain ⟨-, -, -, -, hstore, -⟩ := hwf
    exact ⟨kv.1, hne, (hstore kv hkv c hc).2⟩
  · rintro ⟨p, hne, hc⟩
    obtain ⟨l, hl, hcl⟩ := (owned_iff hwf p c).2 hc
    exact ⟨(p, l), alGet_mem hl, hne, hcl⟩

lemma enemiesOf_inB {st : State} (hwf : WF st) {t : Int} {c : Pos}
    (h : c ∈ enemiesOf st.grid.lop t) : inB st.side c := by
  rw [mem_enemiesOf] at h
  obtain ⟨kv, hkv, -, hc⟩ := h
  obtain ⟨-, -, -, -, hstore, -⟩ := hwf
  exact (hstore kv hkv c hc).1

lemma cellAt_none_iff {st : State} (hwf : WF st) (t : Int) {c : Pos} :
    cellAt st.grid c = none ↔
      (c ∉ enemiesOf st.grid.lop t ∧ c ∉ ownOf st.grid.lop t) := by
  constructor
  · intro h
    constructor
    · intro hc
      obtain ⟨p, -, hp⟩ := (mem_enemiesOf_iff hwf).1 hc
      rw [h] at hp
      cases hp
    · intro hc
      rw [mem_ownOf_iff hwf, h] at hc
      cases hc
  · rintro ⟨he, ho⟩
    cases hcell : cellAt st.grid c with
    | none => rfl
    | some p =>
      by_cases hp : p = t
      · subst hp
        exact absurd ((mem_ownOf_iff hwf).2 hcell) ho
      · exact absurd ((mem_enemiesOf_iff hwf).2 ⟨p, hp, hcell⟩) he

end ReversiPy

namespace ReversiPy

/-! ## C7 -/

lemma available_moves_normal (st : State)
    (hphase : st.othello = true ∨ st.players ^ 2 ≤ st.grid.piece_count) :
    available_moves st = possible_moves direction_list (ownOf st.grid.lop st.turn)
      (enemiesOf st.grid.lop st.turn) st.side st.side := by
  unfold available_moves
  rw [if_neg]
  rintro ⟨h1, h2⟩
  rcases hphase with h | h
  · rw [h] at h1
    cases h1
  · omega

/-- C7: in the normal phase (`othello_layout` true or the opening count
reached) `available_moves` contains a position `m` iff `m` is an on-board
cell occupied by no player such that for some cell `q` occupied by the
current player and one of the 8 directions, walking from `q` crosses a
contiguous nonempty run of opposing-player cells and `m` is the cell
immediately past the run; and the returned list has no duplicates. -/
theorem available_moves_normal_characterization (st : State) (hwf : WF st)
    (hphase : st.othello = true ∨ st.players ^ 2 ≤ st.grid.piece_count) :
    (available_moves st).Nodup ∧
    ∀ m : Pos, m ∈ available_moves st ↔
      (inB st.side m ∧ cellAt st.grid m = none ∧
       ∃ q d, cellAt st.grid q = some st.turn ∧ d ∈ direction_list ∧
         ∃ k : Nat, 1 ≤ k ∧
           (∀ j : Nat, 1 ≤ j → j ≤ k →
             ∃ p, p ≠ st.turn ∧ cellAt st.grid (ray q d j) = some p) ∧
           m = ray q d (k + 1)) := by
  rw [available_moves_normal st hphase]
  refine ⟨possible_moves_nodup _ _ _ _ _, ?_⟩
  intro m
  rw [mem_possible_moves]
  constructor
  · rintro ⟨q, hq, d, hd, h1, h2, h3, h4, h5, h6⟩
    have hdz := direction_list_ne_zero d hd
    rw [walkEnemy_runLen _ hdz q] at h2
    obtain ⟨hall, hout⟩ := runLen_spec (enemiesOf st.grid.lop st.turn) hdz q
    have hk1 : 1 ≤ runLen (enemiesOf st.grid.lop st.turn) q d := by
      by_contra hc
      push_neg at hc
      have h0 : runLen (enemiesOf st.grid.lop st.turn) q d = 0 := by omega
      rw [h0] at hout
      rw [← ray_one q d] at h1
      exact hout h1
    refine ⟨⟨h3.1, h4.1, h3.2, h4.2⟩, (cellAt_none_iff hwf st.turn).2 ⟨h5, h6⟩,
      q, d, (mem_ownOf_iff hwf).1 hq, hd,
      runLen (enemiesOf st.grid.lop st.turn) q d, hk1, ?_, h2⟩
    intro j hj1 hj2
    have := hall j hj1 hj2
    rw [mem_enemiesOf_iff hwf] at this
    obtain ⟨p, hp, hcp⟩ := this
    exact ⟨p, hp, hcp⟩
  · rintro ⟨hmB, hmnone, q, d, hq, hd, k, hk1, hrun, rfl⟩
    have hdz := direction_list_ne_zero d hd
    have hout : ray q d (k + 1) ∉ enemiesOf st.grid.lop st.turn :=
      ((cellAt_none_iff hwf st.turn).1 hmnone).1
    have hall : ∀ j : Nat, 1 ≤ j → j ≤ k →
        ray q d j ∈ enemiesOf st.grid.lop st.turn := by
      intro j hj1 hj2
      obtain ⟨p, hp, hcp⟩ := hrun j hj1 hj2
      exact (mem_enemiesOf_iff hwf).2 ⟨p, hp, hcp⟩
    have hrl : runLen (enemiesOf st.grid.lop st.turn) q d = k :=
      runLen_eq_of _ hdz q k hall hout
    refine ⟨q, (mem_ownOf_iff hwf).2 hq, d, hd, ?_, ?_, ?_, ?_, ?_, ?_⟩
    · rw [← ray_one q d]
      exact hall 1 (by omega) (by omega)
    · rw [walkEnemy_runLen _ hdz q, hrl]
    · exact ⟨hmB.1, hmB.2.2.1⟩
    · exact ⟨hmB.2.1, hmB.2.2.2⟩
    · exact hout
    · exact ((cellAt_none_iff hwf st.turn).1 hmnone).2

/-- Witness for C7 on the fresh `Reversi(4, 2, True)` engine (normal phase
since the Othello layout is set). -/
theorem available_moves_normal_characterization_witness :
    WF othelloStart ∧
    (othelloStart.othello = true ∨
      othelloStart.players ^ 2 ≤ othelloStart.grid.piece_count) ∧
    ((available_moves othelloStart).Nodup ∧
    ∀ m : Pos, m ∈ available_moves othelloStart ↔
      (inB othelloStart.side m ∧ cellAt othelloStart.grid m = none ∧
       ∃ q d, cellAt othelloStart.grid q = some othelloStart.turn ∧
         d ∈ direction_list ∧
         ∃ k : Nat, 1 ≤ k ∧
           (∀ j : Nat, 1 ≤ j → j ≤ k →
             ∃ p, p ≠ othelloStart.turn ∧
               cellAt othelloStart.grid (ray q d j) = some p) ∧
           m = ray q d (k + 1))) :=
  ⟨by decide, by decide,
    available_moves_normal_characterization othelloStart (by decide) (by decide)⟩

end ReversiPy

namespace ReversiPy

/-! ## C5 support: cross-direction disjointness and board mutation lemmas -/

lemma sign_determines_direction :
    ∀ d ∈ direction_list, ∀ d' ∈ direction_list,
      d.1.sign = d'.1.sign → d.2.sign = d'.2.sign → d = d' := by
  decide

/-- Outward ray cells of two distinct directions never coincide. -/
lemma ray_cross_ne {d d' : Pos} (hd : d ∈ direction_list)
    (hd' : d' ∈ direction_list) (hne : d ≠ d') (p : Pos) {k k' : Nat}
    (hk : 1 ≤ k) (hk' : 1 ≤ k') : ray p d k ≠ ray p d' k' := by
  intro he
  rw [ray, ray, Prod.mk.injEq] at he
  obtain ⟨h1, h2⟩ := he
  have e1 : (k : Int) * d.1 = (k' : Int) * d'.1 := by omega
  have e2 : (k : Int) * d.2 = (k' : Int) * d'.2 := by omega
  have hks : ((k : Int)).sign = 1 := Int.sign_eq_one_of_pos (by exact_mod_cast hk)
  have hks' : ((k' : Int)).sign = 1 := Int.sign_eq_one_of_pos (by exact_mod_cast hk')
  have s1 : d.1.sign = d'.1.sign := by
    have a1 := Int.sign_mul (k : Int) d.1
    have a2 := Int.sign_mul (k' : Int) d'.1
    rw [e1, a2, hks'] at a1
    rw [hks] at a1
    simpa using a1.symm
  have s2 : d.2.sign = d'.2.sign := by
    have a1 := Int.sign_mul (k : Int) d.2
    have a2 := Int.sign_mul (k' : Int) d'.2
    rw [e2, a2, hks'] at a1
    rw [hks] at a1
    simpa using a1.symm
  exact hne (sign_determines_direction d hd d' hd' s1 s2)

lemma get?_set_self {α : Type} (l : List α) (n : Nat) (a : α)
    (h : n < l.length) : (l.set n a).get? n = some a := by
  rw [List.get?_set_eq]
  obtain ⟨w, hw⟩ : ∃ w, l.get? n = some w := by
    cases hx : l.get? n with
    | none =>
      rw [List.get?_eq_none] at hx
      omega
    | some w => exact ⟨w, rfl⟩
  rw [hw]
  rfl

/-- The location-list update performed by `Board.add_piece`. -/
def lopAdd (lop : List (Int × List Pos)) (player : Int) (loc : Pos) :
    List (Int × List Pos) :=
  match alGet lop player with
  | some l => if loc ∈ l then lop else alSet lop player (l ++ [loc])
  | none => lop ++ [(player, [loc])]

/-- `add_piece` on an in-bounds location of a well-dimensioned board
succeeds; the array gets the single overwritten cell and the dict gets the
`lopAdd` update. -/
lemma add_piece_ok {b : Board} {side : Nat} (hd1 : b.cells.length = side)
    (hd2 : ∀ r ∈ b.cells, r.length = side) {v : Int} {loc : Pos}
    (hloc : inB side loc) :
    ∃ b' : Board, b.add_piece v loc = .ok b' ∧
      b'.cells.length = side ∧ (∀ r ∈ b'.cells, r.length = side) ∧
      b'.lop = lopAdd b.lop v loc ∧
      (∀ c : Pos, cellAt b' c = if c = loc then some v else cellAt b c) := by
  obtain ⟨hl1, hl2, hl3, hl4⟩ := hloc
  have hidx1 : pyIdx b.cells.length loc.1 = some loc.1.toNat := by
    unfold pyIdx
    rw [if_pos ⟨hl1, by omega⟩]
  have hiltN : loc.1.toNat < b.cells.length := by omega
  obtain ⟨r, hr⟩ : ∃ r, b.cells.get? loc.1.toNat = some r := by
    cases hrr : b.cells.get? loc.1.toNat with
    | none =>
      rw [List.get?_eq_none] at hrr
      omega
    | some r => exact ⟨r, rfl⟩
  have hrlen : r.length = side := hd2 r (List.get?_mem hr)
  have hidx2 : pyIdx ((b.cells.get? loc.1.toNat).getD []).length loc.2 =
      some loc.2.toNat := by
    rw [hr]
    unfold pyIdx
    rw [if_pos ⟨hl3, by simpa [hrlen] using by omega⟩]
  refine ⟨⟨b.cells.set loc.1.toNat (((b.cells.get? loc.1.toNat).getD []).set
    loc.2.toNat (some v)), lopAdd b.lop v loc⟩, ?_, ?_, ?_, rfl, ?_⟩
  · rw [Board.add_piece, hidx1]
    simp only []
    rw [hidx2]
    rfl
  · simp [hd1]
  · intro r' hr'
    rcases List.mem_or_eq_of_mem_set hr' with h | h
    · exact hd2 r' h
    · subst h
      rw [List.length_set, hr]
      exact hrlen
  · intro c
    by_cases hceq : c = loc
    · subst hceq
      rw [if_pos rfl]
      unfold cellAt
      rw [if_pos ⟨hl1, hl3⟩, hr]
      simp only [Option.getD_some]
      rw [get?_set_self _ _ _ hiltN]
      simp only [Option.some_bind]
      rw [get?_set_self _ _ _ (by omega)]
      rfl
    · rw [if_neg hceq]
      unfold cellAt
      by_cases hcn : 0 ≤ c.1 ∧ 0 ≤ c.2
      · rw [if_pos hcn, if_pos hcn]
        by_cases hrow : c.1.toNat = loc.1.toNat
        · have hc1 : c.1 = loc.1 := by omega
          have hcol : c.2.toNat ≠ loc.2.toNat := by
            intro hc2'
            exact hceq (Prod.ext hc1 (by omega))
          rw [hrow, hr]
          simp only [Option.getD_some, Option.some_bind]
          rw [get?_set_self _ _ _ hiltN]
          simp only [Option.some_bind]
          rw [List.get?_set_ne _ _ (by omega)]
        · rw [List.get?_set_ne _ _ (by omega)]
      · rw [if_neg hcn, if_neg hcn]

end ReversiPy

namespace ReversiPy

/-! ## C5 support: the eating helper -/

lemma foldl_erase_of_disjoint (eaten : List Pos) :
    ∀ l : List Pos, (∀ x ∈ eaten, x ∉ l) → eaten.foldl List.erase l = l := by
  induction eaten with
  | nil =>
    intro l _
    rfl
  | cons e es ih =>
    intro l h
    rw [List.foldl_cons, List.erase_of_not_mem (h e (List.mem_cons_self _ _))]
    exact ih l (fun x hx => h x (List.mem_cons_of_mem _ hx))

lemma alGet_map_erase (eaten : List Pos) (k : Int) :
    ∀ lop : List (Int × List Pos),
      alGet (lop.map (fun kv => (kv.1, eaten.foldl List.erase kv.2))) k =
        (alGet lop k).map (fun v => eaten.foldl List.erase v) := by
  intro lop
  induction lop with
  | nil => rfl
  | cons hd rest ih =>
    obtain ⟨a, b⟩ := hd
    rw [List.map_cons, alGet, alGet]
    by_cases ha : a = k
    · rw [if_pos ha, if_pos ha]
      rfl
    · rw [if_neg ha, if_neg ha]
      exact ih

lemma alGet_alSet_self (k : Int) (v : List Pos) :
    ∀ lop : List (Int × List Pos), alGet (alSet lop k v) k = some v := by
  intro lop
  induction lop with
  | nil =>
    rw [alSet, alGet, if_pos rfl]
  | cons hd rest ih =>
    obtain ⟨a, b⟩ := hd
    rw [alSet]
    by_cases ha : a = k
    · rw [if_pos ha, alGet, if_pos rfl]
    · rw [if_neg ha, alGet, if_neg ha]
      exact ih

lemma alGet_alSet_ne (k : Int) (v : List Pos) {k' : Int} (h : k' ≠ k) :
    ∀ lop : List (Int × List Pos), alGet (alSet lop k v) k' = alGet lop k' := by
  intro lop
  induction lop with
  | nil =>
    simp [alSet, alGet, Ne.symm h]
  | cons hd rest ih =>
    obtain ⟨a, b⟩ := hd
    rw [alSet]
    by_cases ha : a = k
    · subst ha
      rw [if_pos rfl, alGet, alGet, if_neg (Ne.symm h), if_neg (Ne.symm h)]
    · rw [if_neg ha, alGet, alGet]
      by_cases ha' : a = k'
      · rw [if_pos ha', if_pos ha']
      · rw [if_neg ha', if_neg ha']
        exact ih

/-- Effect of the piece-adding second phase of the eating helper. -/
lemma addAll_ok {sd : Nat} :
    ∀ (eaten : List Pos) (s : State) (tl : List Pos),
      s.side = sd →
      s.grid.cells.length = sd → (∀ r ∈ s.grid.cells, r.length = sd) →
      (∀ x ∈ eaten, inB sd x) → eaten.Nodup →
      alGet s.grid.lop s.turn = some tl →
      (∀ x ∈ eaten, x ∉ tl) →
      ∃ s' : State,
        (eaten.foldlM (fun s pc => do
          let g ← s.grid.add_piece s.turn pc
          pure { s with grid := g }) s) = .ok s' ∧
        s'.side = s.side ∧ s'.players = s.players ∧ s'.othello = s.othello ∧
        s'.turn = s.turn ∧
        s'.grid.cells.length = sd ∧ (∀ r ∈ s'.grid.cells, r.length = sd) ∧
        alGet s'.grid.lop s.turn = some (tl ++ eaten) ∧
        (∀ k : Int, k ≠ s.turn → alGet s'.grid.lop k = alGet s.grid.lop k) ∧
        (∀ c : Pos, cellAt s'.grid c =
          if c ∈ eaten then some s.turn else cellAt s.grid c) := by
  intro eaten
  induction eaten with
  | nil =>
    intro s tl hside hd1 hd2 hin hnd htl hdisj
    refine ⟨s, rfl, rfl, rfl, rfl, rfl, hd1, hd2, by simpa using htl, fun _ _ => rfl, ?_⟩
    intro c
    rw [if_neg (by simp)]
  | cons pc rest ih =>
    intro s tl hside hd1 hd2 hin hnd htl hdisj
    obtain ⟨b', hb', hc1, hc2, hlop, hcell⟩ :=
      @add_piece_ok s.grid sd hd1 hd2 s.turn pc
        (hin pc (List.mem_cons_self _ _))
    have hlop2 : b'.lop = alSet s.grid.lop s.turn (tl ++ [pc]) := by
      rw [hlop]
      unfold lopAdd
      rw [htl]
      show (if pc ∈ tl then s.grid.lop else alSet s.grid.lop s.turn (tl ++ [pc])) = _
      rw [if_neg (hdisj pc (List.mem_cons_self _ _))]
    rw [List.foldlM_cons, hb']
    have hstep : alGet b'.lop s.turn = some (tl ++ [pc]) := by
      rw [hlop2]
      exact alGet_alSet_self _ _ _
    rw [List.nodup_cons] at hnd
    obtain ⟨s', hfold, e1, e2, e3, e4, e5, e6, e7, e8, e9⟩ :=
      ih { s with grid := b' } (tl ++ [pc]) hside hc1 hc2
        (fun x hx => hin x (List.mem_cons_of_mem _ hx)) hnd.2 hstep
        (by
          intro x hx
          rw [List.mem_append, List.mem_singleton]
          rintro (hxtl | rfl)
          · exact hdisj x (List.mem_cons_of_mem _ hx) hxtl
          · exact hnd.1 hx)
    refine ⟨s', ?_, e1, e2, e3, e4, e5, e6, ?_, ?_, ?_⟩
    · show (Except.ok ({ s with grid := b' } : State) >>=
        fun s2 => rest.foldlM (fun s pc => do
          let g ← s.grid.add_piece s.turn pc
          pure { s with grid := g }) s2) = Except.ok s'
      exact hfold
    · rw [e7]
      simp
    · intro k hk
      rw [e8 k hk, hlop2, alGet_alSet_ne _ _ hk]
    · intro c
      rw [e9 c]
      by_cases hc : c ∈ rest
      · rw [if_pos hc, if_pos (List.mem_cons_of_mem _ hc)]
      · rw [if_neg hc, hcell c]
        by_cases hcp : c = pc
        · rw [if_pos hcp, if_pos (by rw [hcp]; exact List.mem_cons_self _ _)]
        · rw [if_neg hcp, if_neg (by
            rw [List.mem_cons]
            rintro (h | h)
            · exact hcp h
            · exact hc h)]

/-- Full effect of `helper_eating_function` when the eaten cells are absent
from the current player's list (the capture scenario). -/
lemma helper_eating_ok {sd : Nat} (s : State) (eaten : List Pos)
    (tl : List Pos)
    (hside : s.side = sd)
    (hd1 : s.grid.cells.length = sd) (hd2 : ∀ r ∈ s.grid.cells, r.length = sd)
    (hin : ∀ x ∈ eaten, inB sd x) (hnd : eaten.Nodup)
    (htl : alGet s.grid.lop s.turn = some tl)
    (hdisj : ∀ x ∈ eaten, x ∉ tl) :
    ∃ s' : State, helper_eating_function s eaten = .ok s' ∧
      s'.side = s.side ∧ s'.players = s.players ∧ s'.othello = s.othello ∧
      s'.turn = s.turn ∧
      s'.grid.cells.length = sd ∧ (∀ r ∈ s'.grid.cells, r.length = sd) ∧
      alGet s'.grid.lop s.turn = some (tl ++ eaten) ∧
      (∀ c : Pos, cellAt s'.grid c =
        if c ∈ eaten then some s.turn else cellAt s.grid c) := by
  unfold helper_eating_function
  have htl1 : alGet (s.grid.lop.map (fun kv => (kv.1, eaten.foldl List.erase kv.2)))
      s.turn = some (eaten.foldl List.erase tl) := by
    rw [alGet_map_erase, htl]
    rfl
  rw [foldl_erase_of_disjoint eaten tl hdisj] at htl1
  have hcells : (({ s with grid := { s.grid with
      lop := s.grid.lop.map (fun kv => (kv.1, eaten.foldl List.erase kv.2)) } } :
        State)).grid.cells = s.grid.cells := rfl
  obtain ⟨s', hfold, e1, e2, e3, e4, e5, e6, e7, e8, e9⟩ :=
    addAll_ok eaten ({ s with grid := { s.grid with
      lop := s.grid.lop.map (fun kv => (kv.1, eaten.foldl List.erase kv.2)) } })
      tl hside hd1 hd2 hin hnd htl1 hdisj
  refine ⟨s', hfold, e1, e2, e3, e4, e5, e6, e7, ?_⟩
  intro c
  rw [e9 c]
  rfl

end ReversiPy

namespace ReversiPy

/-! ## C5 support: the per-direction capture analysis -/

/-- The run of enemy cells adjacent to `pos` along `d` that a capture in
that direction would take. -/
def runCells (enemy : List Pos) (pos d : Pos) : List Pos :=
  (List.range (runLen enemy pos d)).map (fun j => ray pos d (j + 1))

/-- Direction `d` flanks from `pos`: a nonempty enemy run terminated
on-board by an own piece. -/
def flankD (enemy own : List Pos) (side : Nat) (pos d : Pos) : Prop :=
  1 ≤ runLen enemy pos d ∧
  inB side (ray pos d (runLen enemy pos d + 1)) ∧
  ray pos d (runLen enemy pos d + 1) ∈ own

lemma mem_runCells {enemy : List Pos} {pos d x : Pos} :
    x ∈ runCells enemy pos d ↔
      ∃ j : Nat, 1 ≤ j ∧ j ≤ runLen enemy pos d ∧ x = ray pos d j := by
  unfold runCells
  rw [List.mem_map]
  constructor
  · rintro ⟨j, hj, rfl⟩
    rw [List.mem_range] at hj
    exact ⟨j + 1, by omega, by omega, rfl⟩
  · rintro ⟨j, hj1, hj2, rfl⟩
    refine ⟨j - 1, ?_, ?_⟩
    · rw [List.mem_range]
      omega
    · have he : j - 1 + 1 = j := by omega
      rw [he]

lemma runCells_sub_enemy {enemy : List Pos} {d : Pos} (hd : d ≠ ((0:Int), (0:Int)))
    {pos : Pos} : ∀ x ∈ runCells enemy pos d, x ∈ enemy := by
  intro x hx
  obtain ⟨j, hj1, hj2, rfl⟩ := mem_runCells.1 hx
  exact (runLen_spec enemy hd pos).1 j hj1 hj2

lemma runCells_nodup {enemy : List Pos} {d : Pos} (hd : d ≠ ((0:Int), (0:Int)))
    {pos : Pos} : (runCells enemy pos d).Nodup := by
  unfold runCells
  refine (List.nodup_range _).map ?_
  intro a b hab
  have := @ray_injective d hd pos (a + 1) (b + 1) hab
  omega

lemma guard_iff_inB (sd : Nat) (c : Pos) :
    ((c.1 ≥ 0 ∧ c.2 ≥ 0) ∧ (c.1 < (sd : Int) ∧ c.2 < (sd : Int))) ↔ inB sd c := by
  unfold inB
  constructor
  · rintro ⟨⟨a1, a2⟩, a3, a4⟩
    exact ⟨a1, a3, a2, a4⟩
  · rintro ⟨a1, a2, a3, a4⟩
    exact ⟨⟨a1, a3⟩, a2, a4⟩

lemma dirLoop_spec
    (enemy0 own0 : List Pos) (tn : Int) (sd : Nat) (pos : Pos) (ownA : Bool)
    {d : Pos} (hd : d ∈ direction_list)
    (Hen : ∀ c ∈ enemy0, inB sd c)
    (Hdisj : ∀ c ∈ enemy0, c ∉ own0)
    (Hpos : pos ∉ enemy0)
    (HownA0 : ownA = false → own0 = [])
    (fl : List Pos)
    (Hflray : ∀ x ∈ fl, ∃ d' ∈ direction_list, d' ≠ d ∧
      ∃ j : Nat, 1 ≤ j ∧ x = ray pos d' j)
    (s : State)
    (hside : s.side = sd) (hturn : s.turn = tn)
    (hcl : s.grid.cells.length = sd) (hcr : ∀ r ∈ s.grid.cells, r.length = sd)
    (hown : ownA = true → alGet s.grid.lop tn = some (own0 ++ pos :: fl)) :
    ∀ (fuel m : Nat), 1 ≤ m → m ≤ runLen enemy0 pos d →
      fuel + m = enemy0.length + 2 →
      ∃ s' : State,
        dirLoop enemy0 ownA tn d sd fuel s
          ((List.range m).map (fun j => ray pos d (j + 1))) (ray pos d m) = .ok s' ∧
        s'.side = s.side ∧ s'.players = s.players ∧ s'.othello = s.othello ∧
        s'.turn = s.turn ∧
        s'.grid.cells.length = sd ∧ (∀ r ∈ s'.grid.cells, r.length = sd) ∧
        ((flankD enemy0 own0 sd pos d ∧
          (ownA = true → alGet s'.grid.lop tn =
            some (own0 ++ pos :: (fl ++ runCells enemy0 pos d))) ∧
          (∀ c : Pos, cellAt s'.grid c =
            if c ∈ runCells enemy0 pos d then some tn else cellAt s.grid c)) ∨
         (¬ flankD enemy0 own0 sd pos d ∧ s' = s)) := by
  have hdz : d ≠ ((0:Int), (0:Int)) := direction_list_ne_zero d hd
  obtain ⟨hrun_mem, hrun_out⟩ := runLen_spec enemy0 hdz pos
  have hKle : runLen enemy0 pos d ≤ enemy0.length := by
    by_contra hgt
    push_neg at hgt
    obtain ⟨j0, a1, a2, a3⟩ := ray_escape enemy0 hdz pos
    exact a3 (hrun_mem j0 a1 (by omega))
  intro fuel
  induction fuel with
  | zero =>
    intro m h1 h2 h3
    omega
  | succ fu ih =>
    intro m hm1 hm2 hfuel
    rw [dirLoop, if_pos (hrun_mem m hm1 hm2), ← ray_succ pos d m]
    by_cases hmK : m < runLen enemy0 pos d
    · have hin_next : ray pos d (m + 1) ∈ enemy0 := hrun_mem (m + 1) (by omega) (by omega)
      rw [if_pos ((guard_iff_inB sd _).2 (Hen _ hin_next)), if_pos hin_next]
      have heat : ((List.range m).map (fun j => ray pos d (j + 1))) ++ [ray pos d (m + 1)] =
          (List.range (m + 1)).map (fun j => ray pos d (j + 1)) := by
        rw [List.range_succ, List.map_append]
        rfl
      rw [heat]
      exact ih (m + 1) (by omega) (by omega) (by omega)
    · have hmEq : m = runLen enemy0 pos d := by omega
      rw [hmEq]
      have hK1 : 1 ≤ runLen enemy0 pos d := by omega
      obtain ⟨fu', rfl⟩ : ∃ fu', fu = fu' + 1 := ⟨fu - 1, by omega⟩
      by_cases hb : inB sd (ray pos d (runLen enemy0 pos d + 1))
      · rw [if_pos ((guard_iff_inB sd _).2 hb), if_neg hrun_out]
        by_cases hc2own : ray pos d (runLen enemy0 pos d + 1) ∈ own0
        · -- capture
          have hA : ownA = true := by
            cases hA : ownA
            · rw [HownA0 hA] at hc2own
              cases hc2own
            · rfl
          have hview : ray pos d (runLen enemy0 pos d + 1) ∈ ownView ownA tn s := by
            unfold ownView
            rw [if_pos hA, hown hA]
            simp only [Option.getD_some]
            exact List.mem_append_left _ hc2own
          rw [if_pos hview]
          have hdisj_tl : ∀ x ∈ runCells enemy0 pos d, x ∉ own0 ++ pos :: fl := by
            intro x hx hmem
            have hxe : x ∈ enemy0 := runCells_sub_enemy hdz x hx
            obtain ⟨j, hj1, hj2, rfl⟩ := mem_runCells.1 hx
            rw [List.mem_append, List.mem_cons] at hmem
            rcases hmem with h | h | h
            · exact Hdisj _ hxe h
            · rw [h] at hxe
              exact Hpos hxe
            · obtain ⟨d', hd', hne, j', hj', hx'⟩ := Hflray _ h
              exact ray_cross_ne hd hd' (fun he => hne he.symm) pos hj1 hj' hx'
          have heatRC : ((List.range (runLen enemy0 pos d)).map
              (fun j => ray pos d (j + 1))) = runCells enemy0 pos d := rfl
          obtain ⟨s'', hh, e1, e2, e3, e4, e5, e6, e7, e9⟩ :=
            helper_eating_ok s (runCells enemy0 pos d)
              (own0 ++ pos :: fl) hside hcl hcr
              (fun x hx => Hen x (runCells_sub_enemy hdz x hx))
              (runCells_nodup hdz) (by rw [hturn]; exact hown hA) hdisj_tl
          rw [heatRC, hh]
          refine ⟨s'', ?_, e1, e2, e3, e4, e5, e6,
            Or.inl ⟨⟨hK1, hb, hc2own⟩, ?_, ?_⟩⟩
          · show (dirLoop enemy0 ownA tn d sd (fu' + 1) s''
              (runCells enemy0 pos d) (ray pos d (runLen enemy0 pos d + 1))) =
                Except.ok s''
            rw [dirLoop, if_neg hrun_out]
          · intro _
            rw [← hturn, e7]
            congr 1
            simp
          · intro c
            rw [e9 c, hturn]
        · -- run ends at an empty cell: no capture
          have hview : ray pos d (runLen enemy0 pos d + 1) ∉ ownView ownA tn s := by
            intro hmem
            unfold ownView at hmem
            cases hA : ownA
            · rw [hA] at hmem
              simp at hmem
            · rw [if_pos hA, hown hA] at hmem
              simp only [Option.getD_some] at hmem
              rw [List.mem_append, List.mem_cons] at hmem
              rcases hmem with h | h | h
              · exact hc2own h
              · have hz : ray pos d (runLen enemy0 pos d + 1) = ray pos d 0 := by
                  rw [ray_zero]
                  exact h
                have := ray_injective hdz pos hz
                omega
              · obtain ⟨d', hd', hne, j', hj', hx'⟩ := Hflray _ h
                exact ray_cross_ne hd hd' (fun he => hne he.symm) pos
                  (by omega) hj' hx'
          rw [if_neg hview, dirLoop, if_neg hrun_out]
          exact ⟨s, rfl, rfl, rfl, rfl, rfl, hcl, hcr,
            Or.inr ⟨fun hf => hc2own hf.2.2, rfl⟩⟩
      · -- runs off the board
        rw [if_neg (fun hg => hb ((guard_iff_inB sd _).1 hg)),
          dirLoop, if_neg hrun_out]
        exact ⟨s, rfl, rfl, rfl, rfl, rfl, hcl, hcr,
          Or.inr ⟨fun hf => hb hf.2.1, rfl⟩⟩

end ReversiPy

namespace ReversiPy

lemma dirStep_spec
    (enemy0 own0 : List Pos) (tn : Int) (sd : Nat) (pos : Pos) (ownA : Bool)
    {d : Pos} (hd : d ∈ direction_list)
    (Hen : ∀ c ∈ enemy0, inB sd c)
    (Hdisj : ∀ c ∈ enemy0, c ∉ own0)
    (Hpos : pos ∉ enemy0)
    (HownA0 : ownA = false → own0 = [])
    (fl : List Pos)
    (Hflray : ∀ x ∈ fl, ∃ d' ∈ direction_list, d' ≠ d ∧
      ∃ j : Nat, 1 ≤ j ∧ x = ray pos d' j)
    (s : State)
    (hside : s.side = sd) (hturn : s.turn = tn)
    (hcl : s.grid.cells.length = sd) (hcr : ∀ r ∈ s.grid.cells, r.length = sd)
    (hown : ownA = true → alGet s.grid.lop tn = some (own0 ++ pos :: fl)) :
    ∃ s' : State, dirStep enemy0 ownA tn sd pos d s = .ok s' ∧
      s'.side = s.side ∧ s'.players = s.players ∧ s'.othello = s.othello ∧
      s'.turn = s.turn ∧
      s'.grid.cells.length = sd ∧ (∀ r ∈ s'.grid.cells, r.length = sd) ∧
      ((flankD enemy0 own0 sd pos d ∧
        (ownA = true → alGet s'.grid.lop tn =
          some (own0 ++ pos :: (fl ++ runCells enemy0 pos d))) ∧
        (∀ c : Pos, cellAt s'.grid c =
          if c ∈ runCells enemy0 pos d then some tn else cellAt s.grid c)) ∨
       (¬ flankD enemy0 own0 sd pos d ∧ s' = s)) := by
  have hdz : d ≠ ((0:Int), (0:Int)) := direction_list_ne_zero d hd
  unfold dirStep
  by_cases hc0 : pos + d ∈ enemy0
  · rw [if_pos hc0]
    have hK1 : 1 ≤ runLen enemy0 pos d := by
      by_contra hc
      push_neg at hc
      have h0 : runLen enemy0 pos d = 0 := by omega
      have hsp := (runLen_spec enemy0 hdz pos).2
      rw [h0] at hsp
      rw [← ray_one pos d] at hc0
      exact hsp hc0
    obtain ⟨s', hrun, hrest⟩ :=
      dirLoop_spec enemy0 own0 tn sd pos ownA hd Hen Hdisj Hpos HownA0 fl
        Hflray s hside hturn hcl hcr hown (enemy0.length + 1) 1 (le_refl 1)
        hK1 (by omega)
    refine ⟨s', ?_, hrest⟩
    show dirLoop enemy0 ownA tn d sd (enemy0.length + 1) s [pos + d] (pos + d) =
      Except.ok s'
    have he2 : pos + d = ray pos d 1 := (ray_one pos d).symm
    rw [he2]
    exact hrun
  · rw [if_neg hc0]
    refine ⟨s, rfl, rfl, rfl, rfl, rfl, hcl, hcr, Or.inr ⟨?_, rfl⟩⟩
    intro hf
    have hstep := (runLen_spec enemy0 hdz pos).1 1 (le_refl 1) hf.1
    rw [ray_one] at hstep
    exact hc0 hstep

lemma direction_list_nodup : direction_list.Nodup := by
  decide

lemma capture_fold_spec
    (enemy0 own0 : List Pos) (tn : Int) (sd : Nat) (pos : Pos) (ownA : Bool)
    (Hen : ∀ c ∈ enemy0, inB sd c)
    (Hdisj : ∀ c ∈ enemy0, c ∉ own0)
    (Hpos : pos ∉ enemy0)
    (HownA0 : ownA = false → own0 = [])
    (g : Pos → Option Int) :
    ∀ (ds P : List Pos), P ++ ds = direction_list →
      ∀ (fl : List Pos) (s : State),
        s.side = sd → s.turn = tn →
        s.grid.cells.length = sd → (∀ r ∈ s.grid.cells, r.length = sd) →
        (ownA = true → alGet s.grid.lop tn = some (own0 ++ pos :: fl)) →
        (∀ x : Pos, x ∈ fl ↔ ∃ d' ∈ P, flankD enemy0 own0 sd pos d' ∧
          x ∈ runCells enemy0 pos d') →
        (∀ c : Pos, cellAt s.grid c =
          if c = pos ∨ c ∈ fl then some tn else g c) →
        ∃ s' : State,
          ds.foldlM (fun s d => dirStep enemy0 ownA tn s.side pos d s) s = .ok s' ∧
          s'.side = sd ∧ s'.turn = tn ∧ s'.players = s.players ∧
          s'.othello = s.othello ∧
          ∃ fl' : List Pos,
            (∀ x : Pos, x ∈ fl' ↔ ∃ d' ∈ direction_list,
              flankD enemy0 own0 sd pos d' ∧ x ∈ runCells enemy0 pos d') ∧
            (∀ c : Pos, cellAt s'.grid c =
              if c = pos ∨ c ∈ fl' then some tn else g c) := by
  intro ds
  induction ds with
  | nil =>
    intro P hP fl s hside hturn hcl hcr hown hfl hcells
    rw [List.append_nil] at hP
    subst hP
    exact ⟨s, rfl, hside, hturn, rfl, rfl, fl, hfl, hcells⟩
  | cons d ds ih =>
    intro P hP fl s hside hturn hcl hcr hown hfl hcells
    have hdmem : d ∈ direction_list := by
      rw [← hP]
      exact List.mem_append_right _ (List.mem_cons_self _ _)
    have hPsub : ∀ d' ∈ P, d' ∈ direction_list := by
      intro d' hd'
      rw [← hP]
      exact List.mem_append_left _ hd'
    have hPne : ∀ d' ∈ P, d' ≠ d := by
      intro d' hd' he
      have hnd : (P ++ d :: ds).Nodup := by
        rw [hP]
        exact direction_list_nodup
      rw [List.nodup_append] at hnd
      exact hnd.2.2 hd' (he ▸ List.mem_cons_self d ds)
    have Hflray : ∀ x ∈ fl, ∃ d' ∈ direction_list, d' ≠ d ∧
        ∃ j : Nat, 1 ≤ j ∧ x = ray pos d' j := by
      intro x hx
      obtain ⟨d', hd', hfd', hrc⟩ := (hfl x).1 hx
      obtain ⟨j, hj1, hj2, hxe⟩ := mem_runCells.1 hrc
      exact ⟨d', hPsub d' hd', hPne d' hd', j, hj1, hxe⟩
    obtain ⟨s1, hstep, e1, e2, e3, e4, e5, e6, hcase⟩ :=
      dirStep_spec enemy0 own0 tn sd pos ownA hdmem Hen Hdisj Hpos HownA0
        fl Hflray s hside hturn hcl hcr hown
    rw [List.foldlM_cons]
    have hsideEq : s.side = sd := hside
    rcases hcase with ⟨hflank, hownNew, hcellsNew⟩ | ⟨hnoflank, hse⟩
    · -- d captured
      have hnew_fl : ∀ x : Pos, x ∈ fl ++ runCells enemy0 pos d ↔
          ∃ d' ∈ P ++ [d], flankD enemy0 own0 sd pos d' ∧
            x ∈ runCells enemy0 pos d' := by
        intro x
        rw [List.mem_append]
        constructor
        · rintro (hx | hx)
          · obtain ⟨d', hd', hh⟩ := (hfl x).1 hx
            exact ⟨d', List.mem_append_left _ hd', hh⟩
          · exact ⟨d, List.mem_append_right _ (List.mem_cons_self _ _),
              hflank, hx⟩
        · rintro ⟨d', hd', hfd', hrc⟩
          rw [List.mem_append, List.mem_singleton] at hd'
          rcases hd' with hd' | rfl
          · exact Or.inl ((hfl x).2 ⟨d', hd', hfd', hrc⟩)
          · exact Or.inr hrc
      obtain ⟨s', hfold, f1, f2, f3, f4, fl', hfl', hcells'⟩ :=
        ih (P ++ [d]) (by rw [← hP]; simp) (fl ++ runCells enemy0 pos d) s1
          (e1.trans hside) (e4.trans hturn) e5 e6 hownNew hnew_fl
          (by
            intro c
            rw [hcellsNew c, hcells c]
            by_cases hc1 : c ∈ runCells enemy0 pos d
            · rw [if_pos hc1, if_pos (Or.inr (List.mem_append_right _ hc1))]
            · rw [if_neg hc1]
              by_cases hc2 : c = pos ∨ c ∈ fl
              · rw [if_pos hc2]
                rcases hc2 with hc2 | hc2
                · rw [if_pos (Or.inl hc2)]
                · rw [if_pos (Or.inr (List.mem_append_left _ hc2))]
              · rw [if_neg hc2, if_neg (by
                  rintro (hc3 | hc3)
                  · exact hc2 (Or.inl hc3)
                  · rw [List.mem_append] at hc3
                    rcases hc3 with hc3 | hc3
                    · exact hc2 (Or.inr hc3)
                    · exact hc1 hc3)])
      rw [hsideEq, hstep]
      refine ⟨s', ?_, f1, f2, f3.trans e2, f4.trans e3, fl', hfl', hcells'⟩
      show (Except.ok s1 >>= fun s2 =>
        ds.foldlM (fun s d => dirStep enemy0 ownA tn s.side pos d s) s2) =
          Except.ok s'
      exact hfold
    · -- d did not capture
      have hsame_fl : ∀ x : Pos, x ∈ fl ↔
          ∃ d' ∈ P ++ [d], flankD enemy0 own0 sd pos d' ∧
            x ∈ runCells enemy0 pos d' := by
        intro x
        rw [hfl x]
        constructor
        · rintro ⟨d', hd', hh⟩
          exact ⟨d', List.mem_append_left _ hd', hh⟩
        · rintro ⟨d', hd', hfd', hrc⟩
          rw [List.mem_append, List.mem_singleton] at hd'
          rcases hd' with hd' | rfl
          · exact ⟨d', hd', hfd', hrc⟩
          · exact absurd hfd' hnoflank
      obtain ⟨s', hfold, f1, f2, f3, f4, fl', hfl', hcells'⟩ :=
        ih (P ++ [d]) (by rw [← hP]; simp) fl s
          hside hturn hcl hcr hown hsame_fl hcells
      rw [hsideEq, hstep, hse]
      refine ⟨s', ?_, f1, f2, f3, f4, fl', hfl', hcells'⟩
      show (Except.ok s >>= fun s2 =>
        ds.foldlM (fun s d => dirStep enemy0 ownA tn s.side pos d s) s2) =
          Except.ok s'
      exact hfold

end ReversiPy

namespace ReversiPy
lemma mem_allPieces {lop : List (Int × List Pos)} {c : Pos} :
    c ∈ allPieces lop ↔ ∃ kv ∈ lop, c ∈ kv.2 := by
  unfold allPieces
  rw [List.mem_flatten]
  constructor
  · rintro ⟨l, hl, hc⟩
    rw [List.mem_map] at hl
    obtain ⟨kv, hkv, rfl⟩ := hl
    exact ⟨kv, hkv, hc⟩
  · rintro ⟨kv, hkv, hc⟩
    exact ⟨kv.2, List.mem_map.2 ⟨kv, hkv, rfl⟩, hc⟩

/-- A move returned by `available_moves` (in either phase) is an on-board
empty cell; the opening region lies on the board because
`num_players ≤ side`. -/
lemma legal_move_empty {st : State} (hwf : WF st) (hpl : st.players ≤ st.side)
    {pos : Pos} (hmem : pos ∈ available_moves st) :
    inB st.side pos ∧ cellAt st.grid pos = none := by
  unfold available_moves at hmem
  by_cases hph : st.othello = false ∧ st.grid.piece_count < st.players ^ 2
  · rw [if_pos hph] at hmem
    rw [List.mem_filter] at hmem
    obtain ⟨hreg, hnp⟩ := hmem
    rw [mem_regionCells] at hreg
    have hnp2 : pos ∉ allPieces st.grid.lop := by simpa using hnp
    refine ⟨?_, ?_⟩
    · have h0 : (0 : Int) ≤ (st.side : Int) - (st.players : Int) := by omega
      have h1 : odd_smaller_side st =
          ((st.side : Int) - (st.players : Int)) / 2 := by
        unfold odd_smaller_side
        rw [Int.tdiv_eq_ediv h0 (by omega)]
      have h2 : odd_larger_side st =
          ((st.side : Int) + (st.players : Int)) / 2 := by
        unfold odd_larger_side
        rw [Int.tdiv_eq_ediv (by omega) (by omega)]
      rw [h1, h2] at hreg
      show 0 ≤ pos.1 ∧ pos.1 < (st.side : Int) ∧ 0 ≤ pos.2 ∧
        pos.2 < (st.side : Int)
      omega
    · cases hcp : cellAt st.grid pos with
      | none => rfl
      | some p =>
        obtain ⟨l, hl, hpl2⟩ := (owned_iff hwf p pos).2 hcp
        exact (hnp2 (mem_allPieces.2 ⟨(p, l), alGet_mem hl, hpl2⟩)).elim
  · rw [if_neg hph] at hmem
    rw [mem_possible_moves] at hmem
    obtain ⟨q, hq, d, hd, h1, h2, h3, h4, h5, h6⟩ := hmem
    exact ⟨⟨h3.1, h4.1, h3.2, h4.2⟩, (cellAt_none_iff hwf st.turn).2 ⟨h5, h6⟩⟩

/-- When `done` returns false and the scan stopped on a player with a move,
the current player already having a move means the scan stops immediately:
the state (and its `_turn`) is unchanged. -/
lemma doneScan_false_of_moves {st : State}
    (hnd : (doneScan st).1 = false) (hmv : available_moves st ≠ []) :
    doneScan st = (false, st) := by
  unfold doneScan at hnd ⊢
  cases hp : st.players with
  | zero =>
    rw [hp] at hnd
    simp [doneLoop] at hnd
  | succ f =>
    rw [doneLoop, if_neg hmv]

lemma advLoopA_grid (fuel : Nat) :
    ∀ st : State, (advLoopA fuel st).grid = st.grid := by
  induction fuel with
  | zero =>
    intro st
    rfl
  | succ f ih =>
    intro st
    rw [advLoopA]
    by_cases h : available_moves st = []
    · rw [if_pos h]
      exact ih _
    · rw [if_neg h]

lemma advLoopB_grid (fuel : Nat) :
    ∀ st : State, (advLoopB fuel st).grid = st.grid := by
  induction fuel with
  | zero =>
    intro st
    rfl
  | succ f ih =>
    intro st
    rw [advLoopB]
    by_cases h : available_moves st = []
    · rw [if_pos h]
      exact ih _
    · rw [if_neg h]

/-- The turn-advancement epilogue never touches the board. -/
lemma turnAdvance_grid (st : State) : (turnAdvance st).grid = st.grid := by
  unfold turnAdvance
  by_cases h : st.turn ≠ (st.players : Int)
  · rw [if_pos h]
    exact advLoopA_grid _ _
  · rw [if_neg h]
    exact advLoopB_grid _ _

lemma alGet_lopAdd_self {lop : List (Int × List Pos)} {k : Int} {l : List Pos}
    (hk : alGet lop k = some l) {loc : Pos} (hloc : loc ∉ l) :
    alGet (lopAdd lop k loc) k = some (l ++ [loc]) := by
  have h1 : lopAdd lop k loc = alSet lop k (l ++ [loc]) := by
    unfold lopAdd
    rw [hk]
    show (if loc ∈ l then lop else alSet lop k (l ++ [loc])) = _
    rw [if_neg hloc]
  rw [h1]
  exact alGet_alSet_self _ _ _

/-- `c` lies on a flanked run of `pos` for the current player: in some
compass direction the cells adjacent to `pos` form a contiguous run of one
or more opponent-occupied cells terminated on-board by a cell of the acting
player, and `c` is one of the run's cells. -/
def flankedCell (st : State) (pos c : Pos) : Prop :=
  ∃ d ∈ direction_list, ∃ k : Nat, 1 ≤ k ∧
    (∀ j : Nat, 1 ≤ j → j ≤ k →
      ∃ p, p ≠ st.turn ∧ cellAt st.grid (ray pos d j) = some p) ∧
    inB st.side (ray pos d (k + 1)) ∧
    cellAt st.grid (ray pos d (k + 1)) = some st.turn ∧
    ∃ j : Nat, 1 ≤ j ∧ j ≤ k ∧ c = ray pos d j

/-- On a well-formed state the grid-level flanked-run description coincides
with the dict-level one (`flankD` over the snapshots taken by
`apply_move`). -/
lemma flankedCell_iff {st : State} (hwf : WF st) {pos c : Pos} :
    flankedCell st pos c ↔
      ∃ d ∈ direction_list,
        flankD (enemiesOf st.grid.lop st.turn) (ownOf st.grid.lop st.turn)
          st.side pos d ∧
        c ∈ runCells (enemiesOf st.grid.lop st.turn) pos d := by
  constructor
  · rintro ⟨d, hd, k, hk1, hrun, hinb, hterm, j, hj1, hj2, rfl⟩
    have hdz := direction_list_ne_zero d hd
    have hall : ∀ i : Nat, 1 ≤ i → i ≤ k →
        ray pos d i ∈ enemiesOf st.grid.lop st.turn := by
      intro i hi1 hi2
      obtain ⟨p, hp, hcp⟩ := hrun i hi1 hi2
      exact (mem_enemiesOf_iff hwf).2 ⟨p, hp, hcp⟩
    have hout : ray pos d (k + 1) ∉ enemiesOf st.grid.lop st.turn := by
      intro hc
      obtain ⟨p, hp, hcp⟩ := (mem_enemiesOf_iff hwf).1 hc
      rw [hterm] at hcp
      exact hp (Option.some.inj hcp).symm
    have hrl : runLen (enemiesOf st.grid.lop st.turn) pos d = k :=
      runLen_eq_of _ hdz pos k hall hout
    refine ⟨d, hd, ⟨?_, ?_, ?_⟩, mem_runCells.2 ⟨j, hj1, ?_, rfl⟩⟩
    · rw [hrl]
      exact hk1
    · rw [hrl]
      exact hinb
    · rw [hrl]
      exact (mem_ownOf_iff hwf).2 hterm
    · rw [hrl]
      exact hj2
  · rintro ⟨d, hd, ⟨hk1, hinb, hown⟩, hcrun⟩
    have hdz := direction_list_ne_zero d hd
    obtain ⟨j, hj1, hj2, rfl⟩ := mem_runCells.1 hcrun
    obtain ⟨hall, -⟩ := runLen_spec (enemiesOf st.grid.lop st.turn) hdz pos
    refine ⟨d, hd, runLen (enemiesOf st.grid.lop st.turn) pos d, hk1, ?_, hinb,
      (mem_ownOf_iff hwf).1 hown, j, hj1, hj2, rfl⟩
    intro i hi1 hi2
    obtain ⟨p, hp, hcp⟩ := (mem_enemiesOf_iff hwf).1 (hall i hi1 hi2)
    exact ⟨p, hp, hcp⟩

/-- C5: on a well-formed, non-terminal state whose player count fits the
board, playing any move `pos` from `available_moves` succeeds; the piece is
placed at `pos`, every cell on a flanked run (a contiguous nonempty run of
opponent-occupied cells adjacent to `pos` in one of the 8 directions,
terminated on-board by a cell of the acting player) is converted to the
acting player, and every other cell keeps its previous contents. -/
theorem apply_move_capture_correct (st : State) (pos : Pos)
    (hwf : WF st) (hpl : st.players ≤ st.side)
    (hnd : (doneScan st).1 = false)
    (hmem : pos ∈ available_moves st) :
    ∃ st' : State, apply_move st pos = .ok st' ∧
      cellAt st'.grid pos = some st.turn ∧
      (∀ c : Pos, flankedCell st pos c → cellAt st'.grid c = some st.turn) ∧
      (∀ c : Pos, c ≠ pos → ¬ flankedCell st pos c →
        cellAt st'.grid c = cellAt st.grid c) := by
  obtain ⟨hposB, hposN⟩ := legal_move_empty hwf hpl hmem
  have hds : doneScan st = (false, st) :=
    doneScan_false_of_moves hnd (List.ne_nil_of_mem hmem)
  obtain ⟨g, hadd, hg1, hg2, hglop, hgcell⟩ :=
    @add_piece_ok st.grid st.side hwf.1 hwf.2.1 st.turn pos hposB
  have Hen : ∀ c ∈ enemiesOf st.grid.lop st.turn, inB st.side c :=
    fun c hc => enemiesOf_inB hwf hc
  have Hdisj : ∀ c ∈ enemiesOf st.grid.lop st.turn,
      c ∉ ownOf st.grid.lop st.turn := by
    intro c hc hco
    obtain ⟨p, hp, hcp⟩ := (mem_enemiesOf_iff hwf).1 hc
    have h2 := (mem_ownOf_iff hwf).1 hco
    rw [h2] at hcp
    exact hp (Option.some.inj hcp).symm
  have Hpos : pos ∉ enemiesOf st.grid.lop st.turn := by
    intro hc
    obtain ⟨p, -, hcp⟩ := (mem_enemiesOf_iff hwf).1 hc
    rw [hposN] at hcp
    cases hcp
  have HownA0 : (alGet st.grid.lop st.turn).isSome = false →
      ownOf st.grid.lop st.turn = [] := by
    intro h
    unfold ownOf
    cases halg : alGet st.grid.lop st.turn with
    | none => rfl
    | some l =>
      rw [halg] at h
      simp at h
  have hposOwn : pos ∉ ownOf st.grid.lop st.turn := by
    intro hc
    rw [mem_ownOf_iff hwf, hposN] at hc
    cases hc
  have hown : (alGet st.grid.lop st.turn).isSome = true →
      alGet g.lop st.turn =
        some (ownOf st.grid.lop st.turn ++ pos :: []) := by
    intro hA
    cases halg : alGet st.grid.lop st.turn with
    | none =>
      rw [halg] at hA
      simp at hA
    | some l =>
      have hl : ownOf st.grid.lop st.turn = l := by
        unfold ownOf
        rw [halg]
        rfl
      rw [hglop, hl]
      exact alGet_lopAdd_self halg (by rw [← hl]; exact hposOwn)
  obtain ⟨s3, hfold, h3side, h3turn, h3pl, h3oth, fl', hfl', hcell3⟩ :=
    capture_fold_spec (enemiesOf st.grid.lop st.turn)
      (ownOf st.grid.lop st.turn) st.turn st.side pos
      ((alGet st.grid.lop st.turn).isSome)
      Hen Hdisj Hpos HownA0 (cellAt st.grid)
      direction_list [] rfl [] ({ st with grid := g } : State)
      rfl rfl hg1 hg2 hown (by simp)
      (by
        intro c
        show cellAt g c = _
        rw [hgcell c]
        by_cases hc : c = pos
        · rw [if_pos hc, if_pos (Or.inl hc)]
        · rw [if_neg hc, if_neg (by simp [hc])])
  refine ⟨turnAdvance s3, ?_, ?_, ?_, ?_⟩
  · unfold apply_move
    rw [hds]
    show (st.grid.add_piece st.turn pos >>= fun g2 =>
      (direction_list.foldlM
        (fun s d => dirStep (enemiesOf st.grid.lop st.turn)
          (alGet st.grid.lop st.turn).isSome st.turn s.side pos d s)
        ({ st with grid := g2 } : State)) >>= fun s4 =>
          Except.ok (turnAdvance s4)) = Except.ok (turnAdvance s3)
    rw [hadd]
    show (direction_list.foldlM
        (fun s d => dirStep (enemiesOf st.grid.lop st.turn)
          (alGet st.grid.lop st.turn).isSome st.turn s.side pos d s)
        ({ st with grid := g } : State) >>= fun s4 =>
          Except.ok (turnAdvance s4)) = Except.ok (turnAdvance s3)
    rw [hfold]
    rfl
  · rw [turnAdvance_grid, hcell3 pos]
    rw [if_pos (Or.inl rfl)]
  · intro c hc
    rw [turnAdvance_grid, hcell3 c]
    have hmemfl : c ∈ fl' := (hfl' c).2 ((flankedCell_iff hwf).1 hc)
    rw [if_pos (Or.inr hmemfl)]
  · intro c hcp hcf
    rw [turnAdvance_grid, hcell3 c]
    have hng : ¬ (c = pos ∨ c ∈ fl') := by
      rintro (h | h)
      · exact hcp h
      · exact hcf ((flankedCell_iff hwf).2 ((hfl' c).1 h))
    rw [if_neg hng]

/-- Witness for C5 on the fresh `Reversi(4, 2, True)` engine with the legal
move `(0, 1)` of player 1. -/
theorem apply_move_capture_correct_witness :
    (WF othelloStart ∧ othelloStart.players ≤ othelloStart.side ∧
      (doneScan othelloStart).1 = false ∧
      (((0 : Int), (1 : Int)) : Pos) ∈ available_moves othelloStart) ∧
    ∃ st' : State,
      apply_move othelloStart ((0 : Int), (1 : Int)) = .ok st' ∧
      cellAt st'.grid ((0 : Int), (1 : Int)) = some othelloStart.turn ∧
      (∀ c : Pos, flankedCell othelloStart ((0 : Int), (1 : Int)) c →
        cellAt st'.grid c = some othelloStart.turn) ∧
      (∀ c : Pos, c ≠ ((0 : Int), (1 : Int)) →
        ¬ flankedCell othelloStart ((0 : Int), (1 : Int)) c →
        cellAt st'.grid c = cellAt othelloStart.grid c) :=
  ⟨⟨by decide, by decide, by decide, by decide⟩,
    apply_move_capture_correct othelloStart ((0 : Int), (1 : Int))
      (by decide) (by decide) (by decide) (by decide)⟩

end ReversiPy
